import Mathlib

/-!
Verification development for the `react-resource-hook` data-synchronization
library.  The TypeScript sources under `src/` are shallowly embedded as Lean
functions over a model `JVal` of JavaScript values.

Modelling conventions:
* JS `undefined` and `null` are the atoms `Atom.undef` and `Atom.null`.
* Numbers are modelled as integers (`Int`); the claims under study only
  involve integer-valued fields, and IEEE specials (`NaN`, `-0`) are outside
  the model.
* `File` instances are atoms identified by a reference token.
* JS objects are ordered field lists (`List (String × JVal)`); real JS
  objects never carry duplicate keys, which is captured by the `wf`
  predicate where a theorem needs it.
* Property access on a non-nullish primitive is modelled as yielding
  `undefined` (character indexing of strings is not exercised by any claim).
* A thrown exception is modelled with `Option`/`Except`: `none`/`.error`
  means the corresponding JS computation throws.
-/

namespace RH

/-- Atomic JS values: exactly the values for which `isAtomic` in
`src/src/js/util.ts` returns `true` (null, `File` instances, and
non-object primitives, with `undefined` among the primitives). -/
inductive Atom where
  | null
  | undef
  | bool (b : Bool)
  | num (n : Int)
  | str (s : String)
  | file (ref : Nat)
deriving DecidableEq, Repr

/-- JS values: atoms, keyed objects, and arrays. -/
inductive JVal where
  | atom (a : Atom)
  | obj (fields : List (String × JVal))
  | arr (elems : List JVal)

namespace JVal

/-- Shorthand for JS `null`. -/
def jnull : JVal := .atom .null

/-- Shorthand for JS `undefined`. -/
def jundef : JVal := .atom (.undef)

/-- `isAtomic` from `src/src/js/util.ts`: true for `null`, `File`
instances and every non-object value; false for plain objects and
arrays. -/
def isAtomic : JVal → Bool
  | .atom _ => true
  | .obj _ => false
  | .arr _ => false

/-- Whether a value is an array (JS `Array.isArray`). -/
def isArr : JVal → Bool
  | .arr _ => true
  | _ => false

/-- JS strict equality `===` restricted to atoms (the only place the
sources apply `===` to values the model keeps abstract).  Modulo the
absence of `NaN`/`-0` from the model this is structural equality. -/
def strictEq (a b : Atom) : Bool := a == b

mutual

/-- Size measure used for termination of the deep-equality recursion. -/
def jsize : JVal → Nat
  | .atom _ => 1
  | .obj fs => 1 + sizeFields fs
  | .arr es => 1 + sizeElems es

/-- Total size of an object's field list. -/
def sizeFields : List (String × JVal) → Nat
  | [] => 0
  | (_, v) :: rest => 1 + jsize v + sizeFields rest

/-- Total size of an array's element list. -/
def sizeElems : List JVal → Nat
  | [] => 0
  | v :: rest => 1 + jsize v + sizeElems rest

end

/-- JS object property read `o[k]` for an object with fields `fs`:
the first binding of `k`, or `undefined` when the key is absent. -/
def objGet : List (String × JVal) → String → JVal
  | [], _ => jundef
  | (k', v) :: rest, k => if k' == k then v else objGet rest k

/-- JS array element read `a[i]`: the element, or `undefined` past the
end. -/
def arrGet (es : List JVal) (i : Nat) : JVal := es.getD i jundef

theorem jsize_pos (v : JVal) : 0 < jsize v := by
  cases v <;> simp [jsize]

theorem jsize_objGet_le (gs : List (String × JVal)) (k : String) :
    jsize (objGet gs k) ≤ 1 + sizeFields gs := by
  induction gs with
  | nil => simp [objGet, jundef, jsize]
  | cons p rest ih =>
    cases p with
    | mk k' v =>
      by_cases h : k' == k
      · simp only [objGet, h, if_true, sizeFields]
        omega
      · simp only [objGet, h, if_false, Bool.false_eq_true]
        refine le_trans ih ?_
        have := jsize_pos v
        simp only [sizeFields]
        omega

theorem jsize_arrGet_le (es : List JVal) (i : Nat) :
    jsize (arrGet es i) ≤ 1 + sizeElems es := by
  induction es generalizing i with
  | nil => simp [arrGet, jundef, jsize]
  | cons v rest ih =>
    cases i with
    | zero =>
      simp only [arrGet, List.getD_cons_zero, sizeElems]
      omega
    | succ n =>
      simp only [arrGet, List.getD_cons_succ]
      refine le_trans (ih n) ?_
      have := jsize_pos v
      simp only [sizeElems]
      omega

theorem decFieldLookup (k : String) (v : JVal) (rest gs : List (String × JVal)) :
    jsize v + jsize (objGet gs k) < sizeFields ((k, v) :: rest) + (1 + sizeFields gs) := by
  have := jsize_objGet_le gs k
  simp only [sizeFields]
  omega

theorem decFieldTail (k : String) (v : JVal) (rest gs : List (String × JVal)) :
    sizeFields rest + (1 + sizeFields gs) < sizeFields ((k, v) :: rest) + (1 + sizeFields gs) := by
  have := jsize_pos v
  simp only [sizeFields]
  omega

theorem decElemUndefL (x : JVal) (xs ys : List JVal) :
    jsize x + jsize jundef < sizeElems (x :: xs) + (1 + sizeElems ys) := by
  simp only [sizeElems, jundef, jsize]
  omega

theorem decElemPair (x y : JVal) (xs ys : List JVal) :
    jsize x + jsize y < sizeElems (x :: xs) + (1 + sizeElems (y :: ys)) := by
  simp only [sizeElems]
  omega

theorem decElemTailL (x : JVal) (xs ys : List JVal) :
    sizeElems xs + (1 + sizeElems ys) < sizeElems (x :: xs) + (1 + sizeElems ys) := by
  have := jsize_pos x
  simp only [sizeElems]
  omega

theorem decElemUndefR (y : JVal) (ys : List JVal) :
    jsize y + jsize jundef < sizeElems [] + (1 + sizeElems (y :: ys)) := by
  simp only [sizeElems, jundef, jsize]
  omega

theorem decElemTailR (y : JVal) (ys : List JVal) :
    sizeElems ([] : List JVal) + (1 + sizeElems ys)
      < sizeElems ([] : List JVal) + (1 + sizeElems (y :: ys)) := by
  have := jsize_pos y
  simp only [sizeElems]
  omega

theorem decElemBoth (x y : JVal) (xs ys : List JVal) :
    sizeElems xs + (1 + sizeElems ys) < sizeElems (x :: xs) + (1 + sizeElems (y :: ys)) := by
  have := jsize_pos x
  have := jsize_pos y
  simp only [sizeElems]
  omega

mutual

/-- `deepEquals` from `src/src/js/util.ts` as invoked with the **default**
equality callback (the recursive calls in the source omit the third
argument, so every nested comparison uses the default `===`). -/
def deepEqualsD : JVal → JVal → Bool
  | .atom x, .atom y => strictEq x y
  | .obj fs, .obj gs => deFieldsA fs gs && deFieldsB gs fs
  | .arr xs, .arr ys => deArrA xs ys && deArrB xs ys
  | _, _ => false
termination_by a b => jsize a + jsize b
decreasing_by
  all_goals (simp only [jsize]; omega)

/-- First loop of `deepEquals` on objects: every field `(k, v)` of `a`
must deep-equal `b[k]`. -/
def deFieldsA : List (String × JVal) → List (String × JVal) → Bool
  | [], _ => true
  | (k, v) :: rest, gs => deepEqualsD v (objGet gs k) && deFieldsA rest gs
termination_by fs gs => sizeFields fs + (1 + sizeFields gs)
decreasing_by
  all_goals first
    | apply decFieldLookup
    | apply decFieldTail

/-- Second loop of `deepEquals` on objects: every field `(k, w)` of `b`
whose key is absent from `a` is compared against `a[k] = undefined`. -/
def deFieldsB : List (String × JVal) → List (String × JVal) → Bool
  | [], _ => true
  | (k, w) :: rest, fs =>
    (if fs.any (fun p => p.1 == k) then true else deepEqualsD w (objGet fs k))
      && deFieldsB rest fs
termination_by gs fs => sizeFields gs + (1 + sizeFields fs)
decreasing_by
  all_goals first
    | apply decFieldLookup
    | apply decFieldTail

/-- First loop of `deepEquals` on arrays: `a[i]` vs `b[i]` for every index
of `a`, reading `undefined` past the end of `b`. -/
def deArrA : List JVal → List JVal → Bool
  | [], _ => true
  | x :: xs, [] => deepEqualsD x jundef && deArrA xs []
  | x :: xs, y :: ys => deepEqualsD x y && deArrA xs ys
termination_by xs ys => sizeElems xs + (1 + sizeElems ys)
decreasing_by
  all_goals first
    | apply decElemUndefL
    | apply decElemPair
    | apply decElemTailL
    | apply decElemBoth

/-- Second loop of `deepEquals` on arrays: the indices of `b` beyond the
length of `a` are compared against `undefined`. -/
def deArrB : List JVal → List JVal → Bool
  | [], [] => true
  | [], y :: ys => deepEqualsD y jundef && deArrB [] ys
  | _ :: _, [] => true
  | _ :: xs, _ :: ys => deArrB xs ys
termination_by xs ys => sizeElems xs + (1 + sizeElems ys)
decreasing_by
  all_goals first
    | apply decElemUndefR
    | apply decElemTailR
    | apply decElemBoth

end

/-- `deepEquals(a, b, equalityCallback)` from `src/src/js/util.ts` with an
explicit leaf comparator.  The source's recursive calls drop the callback,
so composite branches continue with the default comparison
(`deepEqualsD`). -/
def deepEquals (a b : JVal) (cmp : Atom → Atom → Bool := strictEq) : Bool :=
  match a, b with
  | .atom x, .atom y => cmp x y
  | .obj fs, .obj gs => deFieldsA fs gs && deFieldsB gs fs
  | .arr xs, .arr ys => deArrA xs ys && deArrB xs ys
  | _, _ => false


mutual

/-- `deepEquals` as the spec describes it: the same recursion scheme as
the source, but with the leaf comparator threaded through every
recursive call.  This definition follows the spec's words and exists to
be compared with the source's `deepEquals`. -/
def deepEqualsSpec (cmp : Atom → Atom → Bool) : JVal → JVal → Bool
  | .atom x, .atom y => cmp x y
  | .obj fs, .obj gs => deSpecFieldsA cmp fs gs && deSpecFieldsB cmp gs fs
  | .arr xs, .arr ys => deSpecArrA cmp xs ys && deSpecArrB cmp xs ys
  | _, _ => false
termination_by a b => jsize a + jsize b
decreasing_by
  all_goals (simp only [jsize]; omega)

/-- Spec rendering of the first object loop, comparator threaded. -/
def deSpecFieldsA (cmp : Atom → Atom → Bool) :
    List (String × JVal) → List (String × JVal) → Bool
  | [], _ => true
  | (k, v) :: rest, gs =>
    deepEqualsSpec cmp v (objGet gs k) && deSpecFieldsA cmp rest gs
termination_by fs gs => sizeFields fs + (1 + sizeFields gs)
decreasing_by
  all_goals first
    | apply decFieldLookup
    | apply decFieldTail

/-- Spec rendering of the second object loop, comparator threaded. -/
def deSpecFieldsB (cmp : Atom → Atom → Bool) :
    List (String × JVal) → List (String × JVal) → Bool
  | [], _ => true
  | (k, w) :: rest, fs =>
    (if fs.any (fun p => p.1 == k) then true else deepEqualsSpec cmp w (objGet fs k))
      && deSpecFieldsB cmp rest fs
termination_by gs fs => sizeFields gs + (1 + sizeFields fs)
decreasing_by
  all_goals first
    | apply decFieldLookup
    | apply decFieldTail

/-- Spec rendering of the first array loop, comparator threaded. -/
def deSpecArrA (cmp : Atom → Atom → Bool) : List JVal → List JVal → Bool
  | [], _ => true
  | x :: xs, [] => deepEqualsSpec cmp x jundef && deSpecArrA cmp xs []
  | x :: xs, y :: ys => deepEqualsSpec cmp x y && deSpecArrA cmp xs ys
termination_by xs ys => sizeElems xs + (1 + sizeElems ys)
decreasing_by
  all_goals first
    | apply decElemUndefL
    | apply decElemPair
    | apply decElemTailL
    | apply decElemBoth

/-- Spec rendering of the second array loop, comparator threaded. -/
def deSpecArrB (cmp : Atom → Atom → Bool) : List JVal → List JVal → Bool
  | [], [] => true
  | [], y :: ys => deepEqualsSpec cmp y jundef && deSpecArrB cmp [] ys
  | _ :: _, [] => true
  | _ :: xs, _ :: ys => deSpecArrB cmp xs ys
termination_by xs ys => sizeElems xs + (1 + sizeElems ys)
decreasing_by
  all_goals first
    | apply decElemUndefR
    | apply decElemTailR
    | apply decElemBoth

end

/-- No two fields of an object share a key (true of every real JS
object; the list model of objects can express repetition, which `wf`
excludes). -/
def nodupKeys : List (String × JVal) → Bool
  | [] => true
  | (k, _) :: rest => !(rest.any (fun p => p.1 == k)) && nodupKeys rest

mutual

/-- Well-formed JS value: objects carry no duplicate keys, recursively. -/
def wf : JVal → Bool
  | .atom _ => true
  | .obj fs => nodupKeys fs && wfFields fs
  | .arr es => wfElems es
termination_by v => jsize v
decreasing_by
  all_goals (simp only [jsize, sizeFields, sizeElems]; omega)

/-- All field values well-formed. -/
def wfFields : List (String × JVal) → Bool
  | [] => true
  | (_, v) :: rest => wf v && wfFields rest
termination_by fs => sizeFields fs
decreasing_by
  all_goals (simp only [jsize, sizeFields, sizeElems]; omega)

/-- All elements well-formed. -/
def wfElems : List JVal → Bool
  | [] => true
  | v :: rest => wf v && wfElems rest
termination_by es => sizeElems es
decreasing_by
  all_goals (simp only [jsize, sizeFields, sizeElems]; omega)

end

/-- JS strict equality `===` (and SameValueZero, which only differs on
`NaN`) on identifier values.  Reference equality of composite values is
outside the model: two composite values are never identified; every
identifier arising in the claims is an atom. -/
def strictEqJ : JVal → JVal → Bool
  | .atom x, .atom y => strictEq x y
  | _, _ => false

/-- JS read of `item.id`: `none` models the TypeError thrown on a
nullish base; reads on non-object values yield `undefined`. -/
def getId : JVal → Option JVal
  | .atom .null => none
  | .atom .undef => none
  | .atom _ => some jundef
  | .obj fs => some (objGet fs "id")
  | .arr _ => some jundef

/-- JS property read `base[k]` as used by `pruneUnchangedRecursive`:
`none` models the TypeError thrown when `base` is nullish; reads on
other primitives yield `undefined` (character indexing of strings is not
modelled); arrays accessed with a numeric key yield the element. -/
def getPropEx : JVal → String → Option JVal
  | .atom .null, _ => none
  | .atom .undef, _ => none
  | .atom _, _ => some jundef
  | .obj fs, k => some (objGet fs k)
  | .arr es, k =>
    some (match k.toNat? with
      | some i => arrGet es i
      | none => jundef)

/-- `pruneUnchangedRecursive` from `src/src/js/util.ts`.  The `input`
object is its field list; the result is the field list of the `target`
object, `none` modelling a thrown TypeError.  The source does not pass
`ignoreKeys` to the recursive call, so nested levels use the default
`[]`.  (JS would overwrite on a duplicate input key where this model
conses both bindings; theorems that need it assume `nodupKeys`.) -/
def pruneRec : List (String × JVal) → JVal → List String → Option (List (String × JVal))
  | [], _, _ => some []
  | (k, v) :: rest, comparison, ignoreKeys =>
    if isAtomic v || isArr v then
      if ignoreKeys.contains k then
        (pruneRec rest comparison ignoreKeys).map (fun t => (k, v) :: t)
      else
        match getPropEx comparison k with
        | none => none
        | some c =>
          if !deepEqualsD v c then
            (pruneRec rest comparison ignoreKeys).map (fun t => (k, v) :: t)
          else
            pruneRec rest comparison ignoreKeys
    else
      match v with
      | .obj fsv =>
        match getPropEx comparison k with
        | none => none
        | some c => do
          let sub ← pruneRec fsv c []
          let t ← pruneRec rest comparison ignoreKeys
          pure ((k, .obj sub) :: t)
      | _ => none
termination_by fs _ _ => sizeFields fs
decreasing_by
  all_goals (simp only [jsize, sizeFields, sizeElems]; omega)

/-- `pruneUnchanged` from `src/src/js/util.ts`: prune against a fresh
empty target. -/
def pruneUnchanged (input : List (String × JVal)) (comparison : JVal)
    (ignoreKeys : List String := []) : Option (List (String × JVal)) :=
  pruneRec input comparison ignoreKeys

/-- The empty shells that pruning an object against itself leaves
behind: atomic and array fields are dropped, each composite field keeps
its key bound to the shell of its sub-object. -/
def shellFields : List (String × JVal) → List (String × JVal)
  | [] => []
  | (k, v) :: rest =>
    if isAtomic v || isArr v then shellFields rest
    else
      match v with
      | .obj fsv => (k, .obj (shellFields fsv)) :: shellFields rest
      | _ => shellFields rest
termination_by fs => sizeFields fs
decreasing_by
  all_goals (simp only [jsize, sizeFields, sizeElems]; omega)

/-- A field list that contains no leaf values: every field is an object
whose fields again contain no leaves. -/
def noLeaves : List (String × JVal) → Bool
  | [] => true
  | (_, .obj fsv) :: rest => noLeaves fsv && noLeaves rest
  | _ => false
termination_by fs => sizeFields fs
decreasing_by
  all_goals (simp only [jsize, sizeFields, sizeElems]; omega)

/-- Insertion-ordered map mirroring JS `Map`: `set` on an existing key
replaces the value in place, on a fresh key appends; keys are compared
with SameValueZero (modelled by `strictEqJ`). -/
def mapSet (m : List (JVal × JVal)) (k v : JVal) : List (JVal × JVal) :=
  if m.any (fun p => strictEqJ p.1 k) then
    m.map (fun p => if strictEqJ p.1 k then (p.1, v) else p)
  else m ++ [(k, v)]

/-- JS `Map.get`. -/
def mapGet (m : List (JVal × JVal)) (k : JVal) : Option JVal :=
  (m.find? (fun p => strictEqJ p.1 k)).map (·.2)

/-- JS `Map.delete`. -/
def mapDel (m : List (JVal × JVal)) (k : JVal) : List (JVal × JVal) :=
  m.filter (fun p => !(strictEqJ p.1 k))

/-- Fields contributed by spreading a value into an object literal:
objects contribute their fields; nullish values and other primitives
contribute none.  (The sources only spread patch objects, resources and
a possibly-`undefined` `Map.get` result.) -/
def spreadFields : JVal → List (String × JVal)
  | .obj fs => fs
  | _ => []

/-- JS property creation/assignment in an object literal: a later
binding for an existing key overwrites in place, a fresh key appends. -/
def assignField (fs : List (String × JVal)) (k : String) (v : JVal) :
    List (String × JVal) :=
  if fs.any (fun p => p.1 == k) then
    fs.map (fun p => if p.1 == k then (p.1, v) else p)
  else fs ++ [(k, v)]

/-- JS spread-merge `{...a, ...b}`. -/
def jsMerge (a b : JVal) : JVal :=
  .obj ((spreadFields a ++ spreadFields b).foldl
    (fun acc p => assignField acc p.1 p.2) [])

/-- `Delta<T>` as consumed by `resolveDeltas` in `src/src/js/util.ts`:
`store` carries a resource, `update` an id and a patch, `destroy` an
id. -/
inductive Delta where
  | store (resource : JVal)
  | update (id : JVal) (patch : JVal)
  | destroy (id : JVal)

/-- JS read of `delta.id`: `undefined` for a `store` delta (the property
is absent from that variant). -/
def deltaId : Delta → JVal
  | .store _ => jundef
  | .update i _ => i
  | .destroy i => i

/-- Collection branch of `resolveDeltas` (`Array.isArray(input)`): build
the identity-keyed `Map` from the input, fold the deltas over it, return
the values in insertion order.  `none` models the TypeError from reading
`.id` off a nullish element or store resource. -/
def resolveDeltasList (input : List JVal) (deltas : List Delta) :
    Option (List JVal) := do
  let pairs ← input.mapM (fun item => do pure ((← getId item), item))
  let m0 := pairs.foldl (fun m p => mapSet m p.1 p.2) []
  let m ← deltas.foldlM (fun m d => do
    match d with
    | .store r => pure (mapSet m (← getId r) r)
    | .update i p => pure (mapSet m i (jsMerge ((mapGet m i).getD jundef) p))
    | .destroy i => pure (mapDel m i)) m0
  pure (m.map (·.2))

/-- Single-item branch of `resolveDeltas` (the `reduce` over the
deltas).  `none` models the TypeError from reading `.id` off
`undefined`; a `null` accumulator is guarded by the source's
`item !== null` test. -/
def resolveDeltasSingle (input : JVal) (deltas : List Delta) : Option JVal :=
  deltas.foldlM (fun item d => do
    if !(strictEqJ item jnull) then
      let iid ← getId item
      if strictEqJ (deltaId d) iid then
        match d with
        | .update _ p => pure (jsMerge item p)
        | .destroy _ => pure jnull
        | .store _ => pure item
      else pure item
    else pure item) input

end JVal

open JVal

/-- A resource item as consumed by `diff`: a stable integer identifier
plus the remaining fields.  The claims only exercise integer ids. -/
structure DItem where
  id : Int
  rest : List (String × JVal)

/-- The full JS object for a `DItem` (the `id` field first, as in the
record literals of the claims). -/
def DItem.asJVal (d : DItem) : JVal :=
  .obj (("id", .atom (.num d.id)) :: d.rest)

/-- Modelled from the spec: the comparator of `@enymo/comparison` (the
package is absent from `src/`), required by §4.5 to be a total order
with "numeric comparison for numeric ids"; with identifiers modelled as
integers it is integer comparison, captured here through the `≤`
relation used by the sort. -/
def idLe (a b : DItem) : Prop := a.id ≤ b.id

instance : DecidableRel idLe := fun a b => inferInstanceAs (Decidable (a.id ≤ b.id))

instance : IsTotal DItem idLe := ⟨fun a b => Int.le_total a.id b.id⟩

instance : IsTrans DItem idLe := ⟨fun _ _ _ h h' => le_trans h h'⟩

/-- `[...xs].sort((a, b) => compare(a.id, b.id))`: a comparison sort by
id, modelled as an insertion sort (all comparison sorts agree on inputs
whose ids are pairwise distinct, which is the situation of every
claim). -/
def sortById (l : List DItem) : List DItem := l.insertionSort idLe

/-- The merge walk of `diff` (`src/src/js/util.ts` lines 133-152):
`comparison < 0` or an exhausted remote cursor classifies the local
item as destroyed; the symmetric case classifies the remote item as
created; on equal ids the full objects are compared with `deepEquals`
and the remote item is recorded as updated when they differ.  Returns
`(created, updated, destroyed)`. -/
def diffWalk : List DItem → List DItem → List DItem × List DItem × List Int
  | [], [] => ([], [], [])
  | a :: as, [] =>
    let r := diffWalk as []
    (r.1, r.2.1, a.id :: r.2.2)
  | [], b :: bs =>
    let r := diffWalk [] bs
    (b :: r.1, r.2.1, r.2.2)
  | a :: as, b :: bs =>
    if a.id < b.id then
      let r := diffWalk as (b :: bs)
      (r.1, r.2.1, a.id :: r.2.2)
    else if b.id < a.id then
      let r := diffWalk (a :: as) bs
      (b :: r.1, r.2.1, r.2.2)
    else
      let r := diffWalk as bs
      (r.1, if deepEqualsD a.asJVal b.asJVal then r.2.1 else b :: r.2.1, r.2.2)
termination_by la lb => la.length + lb.length

/-- `diff` from `src/src/js/util.ts`: sort both collections by id and
merge-walk them. -/
def diff (loc remote : List DItem) : List DItem × List DItem × List Int :=
  diffWalk (sortById loc) (sortById remote)

/-! ### The reconciliation pass (`refresh`, `src/unnamed/part_005`) -/

/-- JS nullish test (the basis of `??` and `?.`). -/
def isNullish : JVal → Bool
  | .atom .null => true
  | .atom .undef => true
  | _ => false

/-- JS `a ?? b`. -/
def jsCoalesce (a b : JVal) : JVal := if isNullish a then b else a

/-- JS `toString()` on an identifier: `none` models the TypeError on a
nullish receiver; composite receivers give their default string form
(never reached in the claims). -/
def toStrEx : JVal → Option String
  | .atom .null => none
  | .atom .undef => none
  | .atom (.bool b) => some (if b then "true" else "false")
  | .atom (.num n) => some (toString n)
  | .atom (.str s) => some s
  | .atom (.file r) => some ("[object File " ++ toString r ++ "]")
  | .obj _ => some "[object Object]"
  | .arr _ => some "[array]"

/-- The default `uniqueIdentifierCallback`, `item => item.id.toString()`
(`src/unnamed/part_005` line 61): `none` models a thrown TypeError. -/
def uidEx (item : JVal) : Option String := do
  let i ← getId item
  toStrEx i

/-- A cache entry as enumerated by `cacheActions.getCache()`: `rem` is
the remote snapshot at last sync (`undefined` when the entry carries no
pending local mutation), `loc` the local snapshot (`null` when the item
was destroyed locally). -/
structure CacheEntry where
  loc : JVal
  rem : JVal

/-- A configured `conflictResolver`: returns the resolved item (or
`null` to delete) or raises `ConflictError` (`.error ()`). -/
abbrev Resolver := JVal → JVal → JVal → Except Unit JVal

/-- Exceptions escaping the reconciliation pass: `nullAccess` models a
TypeError from a nullish dereference, `assertFail` the `assertNotNull`
cache-integrity assertion (line 481). -/
inductive PassErr where
  | nullAccess
  | assertFail
deriving DecidableEq, Repr

/-- The mutable state of one reconciliation pass (lines 453-612): the
merged identity map, the pending remote identities, the six operation
lists, the `syncIds` set, and a log recording each invocation of the
configured conflict resolver with its arguments in call order. -/
structure Plan where
  map : List (String × JVal)
  mapIds : List String
  syncIds : List JVal
  remoteStore : List JVal
  remoteUpdate : List JVal
  remoteDestroy : List JVal
  localStore : List JVal
  localUpdate : List JVal
  localDestroy : List JVal
  log : List (JVal × JVal × JVal)

/-- JS string-keyed `Map.get`. -/
def smapGet (m : List (String × JVal)) (k : String) : Option JVal :=
  (m.find? (fun p => p.1 == k)).map (·.2)

/-- JS string-keyed `Map.delete`. -/
def smapDel (m : List (String × JVal)) (k : String) : List (String × JVal) :=
  m.filter (fun p => !(p.1 == k))

/-- `Set.add` on `syncIds` (SameValueZero membership). -/
def syncAdd (s : List JVal) (v : JVal) : List JVal :=
  if s.any (fun x => strictEqJ x v) then s else s ++ [v]

/-- Outcome classification for `handleConflict`: the `ConflictError`
raised by the default (or a failing) resolver versus any other
exception (`requireNotNull` or the identifier callback throwing). -/
inductive HCErr where
  | conflict
  | plain
deriving DecidableEq, Repr

/-- `handleConflict` (`src/unnamed/part_005` lines 126-148): compute the
identity of the conflicting item — `requireNotNull(local ?? remote)`
throws a plain error when both are nullish, the identifier callback
throws on a nullish id — then invoke the configured resolver, or raise
`ConflictError` when none is configured.  The first component records
the resolver invocations performed. -/
def handleConflict (resolver : Option Resolver) (loc com rem : JVal) :
    List (JVal × JVal × JVal) × Except HCErr JVal :=
  let v := jsCoalesce loc rem
  if isNullish v then ([], .error .plain)
  else
    match uidEx v with
    | none => ([], .error .plain)
    | some _ =>
      match resolver with
      | some f =>
        ([(loc, com, rem)],
          match f loc com rem with
          | .ok r => .ok r
          | .error _ => .error .conflict)
      | none => ([], .error .conflict)

/-- `entry.remote?.id ?? entry.local!.id` (line 559): the id recorded in
`syncIds` once an entry has been handled; throws when it falls through
to a nullish `entry.local`. -/
def entrySyncId (e : CacheEntry) : Except PassErr JVal :=
  let a := if isNullish e.rem then jundef
    else match getId e.rem with
      | some i => i
      | none => jundef
  if isNullish a then
    match getId e.loc with
    | some i => pure i
    | none => .error .nullAccess
  else pure a

/-- Lines 503-549: apply a non-exceptional resolver result to the plan.
The only exception the source can raise inside this region is the
identifier callback on the resolution (line 517), which happens before
any mutation; it is reported as `.plain` so the caller can mirror the
source's catch-all (line 551), which swallows it. -/
def applyResolution (st : Plan) (id : String) (e : CacheEntry)
    (remote resolution : JVal) : Except HCErr Plan :=
  if strictEqJ resolution jnull then
    let st :=
      if !(strictEqJ remote jnull) then
        { st with
          remoteDestroy := st.remoteDestroy ++ [(getId remote).getD jundef],
          map := smapDel st.map id }
      else st
    if !(strictEqJ e.loc jnull) then
      pure { st with localDestroy := st.localDestroy ++ [(getId e.loc).getD jundef] }
    else pure st
  else
    match uidEx resolution with
    | none => .error .plain
    | some resolutionId =>
      let st :=
        if strictEqJ remote jnull then
          { st with
            remoteStore := st.remoteStore ++ [resolution],
            map := assignField st.map resolutionId resolution }
        else if !(strictEqJ ((getId remote).getD jundef) ((getId resolution).getD jundef)) then
          { st with
            remoteDestroy := st.remoteDestroy ++ [(getId remote).getD jundef],
            remoteStore := st.remoteStore ++ [resolution],
            map := assignField (smapDel st.map id) resolutionId resolution }
        else
          { st with
            remoteUpdate := st.remoteUpdate ++ [resolution],
            map := assignField st.map id resolution }
      if strictEqJ e.loc jnull then
        pure { st with localStore := st.localStore ++ [resolution] }
      else if !(strictEqJ ((getId e.loc).getD jundef) ((getId resolution).getD jundef)) then
        pure { st with
          localDestroy := st.localDestroy ++ [(getId e.loc).getD jundef],
          localStore := st.localStore ++ [resolution] }
      else
        pure { st with localUpdate := st.localUpdate ++ [resolution] }

/-- Append the entry's sync id (line 559) after an entry was handled. -/
def markSynced (st : Plan) (e : CacheEntry) : Except PassErr Plan := do
  let sid ← entrySyncId e
  pure { st with syncIds := syncAdd st.syncIds sid }

/-- One iteration of the reconciliation loop (`for (const entry of
cache)`, lines 467-572). -/
def processEntry (resolver : Option Resolver) (st : Plan) (e : CacheEntry) :
    Except PassErr Plan := do
  let id ← match uidEx (jsCoalesce e.rem e.loc) with
    | some s => pure s
    | none => Except.error .nullAccess
  let st := { st with mapIds := st.mapIds.erase id }
  let remote := jsCoalesce ((smapGet st.map id).getD jundef) jnull
  if !(strictEqJ e.rem jundef) then
    if deepEqualsD e.rem remote then
      let st ←
        if strictEqJ e.rem jnull then
          if isNullish e.loc then Except.error .assertFail
          else pure { st with
            remoteStore := st.remoteStore ++ [e.loc],
            map := assignField st.map id e.loc }
        else if strictEqJ e.loc jnull then
          pure { st with
            remoteDestroy := st.remoteDestroy ++ [(getId e.rem).getD jundef],
            map := smapDel st.map id }
        else
          pure { st with
            remoteUpdate := st.remoteUpdate ++ [e.loc],
            map := assignField st.map id e.loc }
      markSynced st e
    else
      match handleConflict resolver e.loc e.rem remote with
      | (lg, .error .conflict) => pure { st with log := st.log ++ lg }
      | (lg, .error .plain) => markSynced { st with log := st.log ++ lg } e
      | (lg, .ok resolution) =>
        let st := { st with log := st.log ++ lg }
        match applyResolution st id e remote resolution with
        | .ok st' => markSynced st' e
        | .error _ => markSynced st e
  else
    if !(deepEqualsD remote e.loc) then
      if strictEqJ remote jnull then
        match getId e.loc with
        | some i => pure { st with localDestroy := st.localDestroy ++ [i] }
        | none => Except.error .nullAccess
      else
        pure { st with localUpdate := st.localUpdate ++ [remote] }
    else
      pure st

/-- Line 455: `new Map(response.data.map(item => [uniqueIdentifierCallback(item),
item]))` — the identity-keyed map of the fetched remote items (last
binding wins for a repeated identity, first-appearance order). -/
def buildRemoteMap (items : List JVal) : Except PassErr (List (String × JVal)) := do
  let pairs ← items.mapM (fun item => do
    match uidEx item with
    | some s => pure (s, item)
    | none => Except.error PassErr.nullAccess)
  pure (pairs.foldl (fun m p => assignField m p.1 p.2) [])

/-- The cache-reconciliation block of `refresh` (lines 453-612): build
the identity map from the freshly fetched remote items, fold the loop
body over the cache entries, push every remaining unmatched remote item
as a `localStore`, and extend `syncIds` with the ids of the local write
operations (lines 602-610).  Dispatch (the adapter calls of lines
581-600) carries no information relevant to the claims; the returned
`Plan` is what the pass hands to the adapters together with the merged
map that becomes the new in-memory state. -/
def reconcile (resolver : Option Resolver) (entries : List CacheEntry)
    (items : List JVal) : Except PassErr Plan := do
  let m0 ← buildRemoteMap items
  let st0 : Plan :=
    { map := m0, mapIds := m0.map (fun p => p.1), syncIds := [],
      remoteStore := [], remoteUpdate := [], remoteDestroy := [],
      localStore := [], localUpdate := [], localDestroy := [], log := [] }
  let st ← entries.foldlM (processEntry resolver) st0
  let st := st.mapIds.foldl (fun s id =>
    { s with localStore := s.localStore ++ [(smapGet s.map id).getD jundef] }) st
  let st ← st.localStore.foldlM (fun s item => do
    match getId item with
    | some i => pure { s with syncIds := syncAdd s.syncIds i }
    | none => Except.error PassErr.nullAccess) st
  let st ← st.localUpdate.foldlM (fun s item => do
    match getId item with
    | some i => pure { s with syncIds := syncAdd s.syncIds i }
    | none => Except.error PassErr.nullAccess) st
  let st := st.localDestroy.foldl
    (fun s i => { s with syncIds := syncAdd s.syncIds i }) st
  pure st

/-! ### The surrounding `refresh` flow (offline fallback, C4) -/

/-- Failure modes of the remote adapter's fetch: `OfflineError` wraps
the original error (`src/unnamed/part_005` lines 43-47); anything else
is a generic transport failure.  Error identities are opaque tokens. -/
inductive FetchErr where
  | offline (orig : Nat)
  | other (e : Nat)
deriving DecidableEq, Repr

/-- What escapes `refresh` (and is rethrown at line 630): a transport
error other than offline, or an exception of the pass itself. -/
inductive RefreshError where
  | transport (e : Nat)
  | pass (e : PassErr)
deriving DecidableEq, Repr

/-- The `{data, meta, error}` response shape of `actions.refresh` and
`cacheActions.refresh`. -/
structure ResourceResponse where
  data : JVal
  meta : JVal
  error : Option Nat

/-- `(response.data as T[]).length > 0` for the `preferOffline`
shortcut. -/
def dataNonempty : Option ResourceResponse → Bool
  | some r =>
    match r.data with
    | .arr (_ :: _) => true
    | _ => false
  | none => false

/-- The elements of an array-valued `response.data`. -/
def dataElems : JVal → List JVal
  | .arr es => es
  | _ => []

/-- The body of `refresh` (lines 442-632) as a function of the adapter
results: the `preferOffline` shortcut, the remote fetch, the optional
reconciliation against the cache, and the `OfflineError` fallback of
lines 622-631.  `cacheRefresh` is the response `cacheActions?.refresh`
would produce (`none` when no cache adapter is configured); `getCache`
likewise stands for `cacheActions?.getCache`. -/
def refreshFlow (preferOffline idIsList : Bool)
    (cacheRefresh : Option ResourceResponse)
    (fetch : Except FetchErr ResourceResponse) (cacheEnabled : Bool)
    (getCache : Option (List CacheEntry)) (resolver : Option Resolver) :
    Except RefreshError ResourceResponse :=
  if preferOffline && idIsList && cacheRefresh.isSome && dataNonempty cacheRefresh then
    .ok (cacheRefresh.getD ⟨jnull, jnull, none⟩)
  else
    match fetch with
    | .ok resp =>
      if cacheEnabled && getCache.isSome && resp.data.isArr then
        match reconcile resolver (getCache.getD []) (dataElems resp.data) with
        | .ok plan => .ok { resp with data := .arr (plan.map.map (·.2)) }
        | .error p => .error (.pass p)
      else .ok resp
    | .error (.offline orig) => .ok (cacheRefresh.getD ⟨jnull, jnull, some orig⟩)
    | .error (.other e) => .error (.transport e)

/-! ### Derived notions used to state the claims -/

/-- The identity of a cache entry, line 468:
`uniqueIdentifierCallback(entry.remote ?? entry.local!)`. -/
def entryUid (e : CacheEntry) : Option String := uidEx (jsCoalesce e.rem e.loc)

/-- The `remote` binding of the loop body, line 471:
`map.get(id) ?? null` for the entry's identity against a remote map. -/
def currentRemote (m : List (String × JVal)) (e : CacheEntry) : JVal :=
  jsCoalesce ((smapGet m ((entryUid e).getD "")).getD jundef) jnull

/-- A cache entry the pass classifies as a conflict and whose
`handleConflict` reaches the resolver stage (the identities involved
are computable): the entry carries a pending local mutation
(`entry.remote !== undefined`), the fetched remote diverges from the
last-synced snapshot, and `local ?? currentRemote` is a value whose
identity the callback can produce. -/
def SkippableConflict (m : List (String × JVal)) (e : CacheEntry) : Prop :=
  (∃ s, entryUid e = some s) ∧
  strictEqJ e.rem jundef = false ∧
  deepEqualsD e.rem (currentRemote m e) = false ∧
  (∃ s, uidEx (jsCoalesce e.loc (currentRemote m e)) = some s)

/-- The pending-identity set left after the loop has visited a list of
entries: each entry deletes its own identity (line 470). -/
def eraseUids (es : List CacheEntry) (ids : List String) : List String :=
  es.foldl (fun ids e => ids.erase ((entryUid e).getD "")) ids

/-- The local snapshot `{id: 1, name: "x"}` of the spec's reconciliation
scenarios (§8). -/
def itemLocalX : JVal := .obj [("id", .atom (.num 1)), ("name", .atom (.str "x"))]

/-- The last-synced remote snapshot `{id: 1, name: "old"}`. -/
def itemRemoteOld : JVal := .obj [("id", .atom (.num 1)), ("name", .atom (.str "old"))]

/-- The remotely changed snapshot `{id: 1, name: "newer"}`. -/
def itemRemoteNewer : JVal := .obj [("id", .atom (.num 1)), ("name", .atom (.str "newer"))]

/-! ## Theorems -/

theorem markSynced_log {st : Plan} {e : CacheEntry} {st' : Plan}
    (h : markSynced st e = .ok st') : st'.log = st.log := by
  unfold markSynced at h
  cases hq : entrySyncId e with
  | error p => rw [hq] at h; exact Except.noConfusion h
  | ok i =>
    rw [hq] at h
    cases Except.ok.inj h
    rfl

theorem applyResolution_log {st : Plan} {id : String} {e : CacheEntry}
    {remote r : JVal} {st' : Plan}
    (h : applyResolution st id e remote r = .ok st') : st'.log = st.log := by
  unfold applyResolution at h
  repeat' split at h
  all_goals first
    | exact Except.noConfusion h
    | (cases Except.ok.inj h; rfl)

theorem entrySyncId_ok {e : CacheEntry} {rfs lfs : List (String × JVal)}
    (hr : e.rem = .obj rfs) (hl : e.loc = .obj lfs) :
    ∃ i, entrySyncId e = .ok i := by
  cases hx : entrySyncId e with
  | ok i => exact ⟨i, rfl⟩
  | error p =>
    exfalso
    unfold entrySyncId at hx
    rw [hr, hl] at hx
    simp only [isNullish, getId, Bool.false_eq_true, if_false] at hx
    split at hx
    · exact Except.noConfusion hx
    · exact Except.noConfusion hx

theorem markSynced_ok (st : Plan) {e : CacheEntry} {i : JVal}
    (hi : entrySyncId e = .ok i) :
    markSynced st e = .ok { st with syncIds := syncAdd st.syncIds i } := by
  unfold markSynced
  rw [hi]
  rfl

theorem conflictTail_ok {stA : Plan} {e : CacheEntry} {i : JVal}
    (hi : entrySyncId e = .ok i) (uid : String) (rem res : JVal) :
    ∃ st', (match applyResolution stA uid e rem res with
      | .ok st2 => markSynced st2 e
      | .error _ => markSynced stA e) = .ok st' ∧ st'.log = stA.log := by
  cases happ : applyResolution stA uid e rem res with
  | ok st2 =>
    refine ⟨_, markSynced_ok st2 hi, ?_⟩
    have h2 := applyResolution_log happ
    exact h2
  | error u =>
    exact ⟨_, markSynced_ok stA hi, rfl⟩


theorem uidEx_some_not_nullish {v : JVal} {s : String}
    (h : uidEx v = some s) : isNullish v = false := by
  cases v with
  | atom a => cases a <;> first | rfl | exact Option.noConfusion h
  | obj fs => rfl
  | arr es => rfl

theorem processEntry_skip (st : Plan) (e : CacheEntry) (uid : String)
    (hid : entryUid e = some uid)
    (hru : strictEqJ e.rem jundef = false)
    (hconf : deepEqualsD e.rem (currentRemote st.map e) = false)
    (hv : ∃ s, uidEx (jsCoalesce e.loc (currentRemote st.map e)) = some s) :
    processEntry none st e = .ok { st with mapIds := st.mapIds.erase uid } := by
  obtain ⟨s, hvs⟩ := hv
  have hvn := uidEx_some_not_nullish hvs
  have hid' : uidEx (jsCoalesce e.rem e.loc) = some uid := hid
  have hremote : jsCoalesce ((smapGet st.map uid).getD jundef) jnull =
      currentRemote st.map e := by
    simp [currentRemote, hid]
  have hpureS : ∀ (x : String), (pure x : Except PassErr String) = Except.ok x :=
    fun _ => rfl
  unfold processEntry
  rw [hid']
  simp only [Bind.bind, Except.bind, hpureS]
  rw [hremote, hconf]
  simp only [hru, Bool.not_false, if_true, Bool.false_eq_true, if_false]
  unfold handleConflict
  simp only [hvn, hvs, Bool.false_eq_true, if_false]
  simp only [List.append_nil]
  rfl

theorem reconcile_loop_skips (m0 : List (String × JVal)) :
    ∀ (es : List CacheEntry) (st : Plan), st.map = m0 →
    (∀ e ∈ es, SkippableConflict m0 e) →
    es.foldlM (processEntry none) st =
      .ok { st with mapIds := eraseUids es st.mapIds } := by
  intro es
  induction es with
  | nil => intro st hm hsk; rfl
  | cons e es ih =>
    intro st hm hsk
    obtain ⟨⟨uid, huid⟩, hru, hconf, hv⟩ := hsk e (List.mem_cons_self e es)
    rw [← hm] at hconf hv
    have hstep := processEntry_skip st e uid huid hru hconf hv
    rw [List.foldlM_cons, hstep]
    simp only [Bind.bind, Except.bind]
    rw [ih _ (hm ▸ rfl) (fun e' he' => hsk e' (List.mem_cons_of_mem e he'))]
    simp [huid, eraseUids]

theorem eraseUids_nil : ∀ (es : List CacheEntry) (ids : List String), ids.Nodup →
    (∀ k ∈ ids, ∃ e ∈ es, entryUid e = some k) →
    eraseUids es ids = [] := by
  intro es
  induction es with
  | nil =>
    intro ids _ hcov
    cases ids with
    | nil => rfl
    | cons k ks =>
      obtain ⟨e, he, _⟩ := hcov k (List.mem_cons_self _ _)
      exact absurd he (List.not_mem_nil e)
  | cons e es ih =>
    intro ids hnd hcov
    show eraseUids es (ids.erase ((entryUid e).getD "")) = []
    apply ih
    · exact hnd.erase _
    · intro k hk
      have hkids : k ∈ ids := List.mem_of_mem_erase hk
      obtain ⟨e', he', huid⟩ := hcov k hkids
      cases List.mem_cons.mp he' with
      | inl h =>
        subst h
        exfalso
        rw [huid] at hk
        exact (List.Nodup.not_mem_erase hnd) hk
      | inr h => exact ⟨e', h, huid⟩

theorem assignField_keys_nodup (m : List (String × JVal)) (k : String) (v : JVal)
    (h : (m.map Prod.fst).Nodup) : ((assignField m k v).map Prod.fst).Nodup := by
  unfold assignField
  split
  · have heq : (m.map (fun p => if p.1 == k then (p.1, v) else p)).map Prod.fst
        = m.map Prod.fst := by
      rw [List.map_map]
      apply List.map_congr_left
      intro p _
      show (if p.1 == k then (p.1, v) else p).1 = p.1
      split <;> rfl
    rw [heq]
    exact h
  · rename_i hany
    rw [List.map_append]
    refine h.append (List.nodup_singleton k) ?_
    intro a ha hb
    rw [List.mem_map] at hb
    obtain ⟨p, hp, hpk⟩ := hb
    rw [List.mem_singleton] at hp
    subst hp
    apply hany
    rw [List.any_eq_true]
    rw [List.mem_map] at ha
    obtain ⟨q, hq, hqa⟩ := ha
    refine ⟨q, hq, ?_⟩
    have hqk : q.1 = k := by rw [hqa, ← hpk]
    simp [hqk]

theorem foldl_assignField_nodup :
    ∀ (pairs : List (String × JVal)) (acc : List (String × JVal)),
    (acc.map Prod.fst).Nodup →
    ((pairs.foldl (fun m p => assignField m p.1 p.2) acc).map Prod.fst).Nodup := by
  intro pairs
  induction pairs with
  | nil => intro acc h; exact h
  | cons p ps ih =>
    intro acc h
    exact ih _ (assignField_keys_nodup acc p.1 p.2 h)

theorem buildRemoteMap_nodup {items : List JVal} {m0 : List (String × JVal)}
    (h : buildRemoteMap items = .ok m0) : (m0.map Prod.fst).Nodup := by
  unfold buildRemoteMap at h
  cases hq : items.mapM (fun item => match uidEx item with
      | some s => pure (s, item)
      | none => Except.error PassErr.nullAccess) with
  | error p => rw [hq] at h; exact Except.noConfusion h
  | ok pairs =>
    rw [hq] at h
    cases Except.ok.inj h
    exact foldl_assignField_nodup pairs [] (by simp)

/-- C3 (counterexample to the claim as stated): the cache entry with
`local = null` and last-synced remote `{id: 1, name: "old"}`, when the
item is also gone from the fetched remote list, is a conflicting entry
(both sides diverged from the last-synced snapshot, as the second
conjunct shows) — yet with no resolver configured the pass does **not**
skip it: `requireNotNull(local ?? remote)` throws a plain error before
the `ConflictError` could be raised, the catch-all swallows it, and the
entry's identity `1` ends up in the batch mark-synced set. -/
theorem c3_counterexample :
    (reconcile none [⟨jnull, itemRemoteOld⟩] [] =
      .ok { map := [], mapIds := [], syncIds := [.atom (.num 1)],
            remoteStore := [], remoteUpdate := [], remoteDestroy := [],
            localStore := [], localUpdate := [], localDestroy := [], log := [] }) ∧
    deepEqualsD (⟨jnull, itemRemoteOld⟩ : CacheEntry).rem
      (currentRemote [] ⟨jnull, itemRemoteOld⟩) = false := by
  constructor
  · simp [reconcile, buildRemoteMap, processEntry, markSynced, entrySyncId, uidEx, getId,
      toStrEx, objGet, jsCoalesce, isNullish, strictEqJ, strictEq, smapGet, smapDel,
      assignField, syncAdd, handleConflict, deepEqualsD, deFieldsA, deFieldsB, deArrA,
      deArrB, itemRemoteOld, jundef, jnull, List.mapM, List.mapM.loop, List.foldlM,
      List.foldl, List.erase, List.find?, List.filter, List.any, List.map, Option.getD,
      Option.bind, bind, Except.bind, pure, Except.pure]
  · simp [currentRemote, entryUid, uidEx, getId, toStrEx, objGet, jsCoalesce, isNullish,
      smapGet, itemRemoteOld, jundef, jnull, deepEqualsD, deFieldsA, deFieldsB, strictEq]

/-- C3 (amended): with no conflict resolver configured, every
conflicting cache entry whose `local ?? currentRemote` is a value with a
computable identity (in particular, not both absent) raises the
distinguished `ConflictError` and is skipped for the rest of the pass:
when every cache entry is such a conflict and every fetched remote item
is matched by a cache entry, the pass completes successfully with all
six operation lists empty, an empty mark-synced set, and no resolver
invocations. -/
theorem c3_amended_unresolved_conflicts_skipped (entries : List CacheEntry)
    (items : List JVal) (m0 : List (String × JVal))
    (hm : buildRemoteMap items = .ok m0)
    (hsk : ∀ e ∈ entries, SkippableConflict m0 e)
    (hcov : ∀ k ∈ m0.map Prod.fst, ∃ e ∈ entries, entryUid e = some k) :
    reconcile none entries items =
      .ok { map := m0, mapIds := [], syncIds := [],
            remoteStore := [], remoteUpdate := [], remoteDestroy := [],
            localStore := [], localUpdate := [], localDestroy := [], log := [] } := by
  unfold reconcile
  rw [hm]
  simp only [Bind.bind, Except.bind]
  rw [reconcile_loop_skips m0 entries _ rfl hsk]
  have hkeys : m0.map (fun p => p.1) = m0.map Prod.fst := rfl
  rw [show eraseUids entries (m0.map (fun p => p.1)) = [] from
    eraseUids_nil entries _ (hkeys ▸ buildRemoteMap_nodup hm) (hkeys ▸ hcov)]
  rfl

/-- Witness for the amended C3: the conflicting entry
`{local: {id:1,name:"x"}, remote: {id:1,name:"old"}}` against the
fetched list `[{id:1,name:"newer"}]` with no resolver — the pass
completes with an empty plan and nothing marked synced. -/
theorem c3_amended_witness :
    reconcile none [⟨itemLocalX, itemRemoteOld⟩] [itemRemoteNewer] =
      .ok { map := [("1", itemRemoteNewer)], mapIds := [], syncIds := [],
            remoteStore := [], remoteUpdate := [], remoteDestroy := [],
            localStore := [], localUpdate := [], localDestroy := [], log := [] } := by
  refine c3_amended_unresolved_conflicts_skipped _ _ _ ?_ ?_ ?_
  · simp [buildRemoteMap, uidEx, getId, toStrEx, objGet, itemRemoteNewer, assignField,
      List.mapM, List.mapM.loop, bind, Except.bind, pure, Except.pure,
      show (toString (1 : Int)) = "1" from rfl]
  · intro e he
    rw [List.mem_singleton] at he
    subst he
    refine ⟨⟨"1", ?_⟩, rfl, ?_, ⟨"1", ?_⟩⟩
    · simp [entryUid, uidEx, jsCoalesce, isNullish, getId, toStrEx, objGet, itemLocalX,
        itemRemoteOld, show (toString (1 : Int)) = "1" from rfl]
    · simp [currentRemote, entryUid, uidEx, getId, toStrEx, objGet, jsCoalesce, isNullish,
        smapGet, itemLocalX, itemRemoteOld, itemRemoteNewer, jundef, jnull,
        deepEqualsD, deFieldsA, deFieldsB, strictEq, List.find?,
        show (toString (1 : Int)) = "1" from rfl]
    · simp [currentRemote, entryUid, uidEx, getId, toStrEx, objGet, jsCoalesce, isNullish,
        smapGet, itemLocalX, itemRemoteOld, itemRemoteNewer, jundef, jnull, List.find?,
        show (toString (1 : Int)) = "1" from rfl]
  · intro k hk
    simp at hk
    subst hk
    refine ⟨⟨itemLocalX, itemRemoteOld⟩, List.mem_singleton_self _, ?_⟩
    simp [entryUid, uidEx, jsCoalesce, isNullish, getId, toStrEx, objGet, itemLocalX,
      itemRemoteOld, show (toString (1 : Int)) = "1" from rfl]

/-- C4: if the remote fetch during `refresh` fails with the designated
offline signal, `refresh` does not fail — it serves the cache adapter's
snapshot when one is configured, and otherwise yields null data with the
original error exposed in the `error` field; any error other than the
offline signal propagates to the caller.  (`preferOffline` is off, so
the fetch is actually attempted.) -/
theorem c4_offline_fallback (idIsList cacheEnabled : Bool)
    (cacheRefresh : Option ResourceResponse) (getCache : Option (List CacheEntry))
    (resolver : Option Resolver) (orig e : Nat) :
    (refreshFlow false idIsList cacheRefresh (.error (.offline orig)) cacheEnabled
        getCache resolver = .ok (cacheRefresh.getD ⟨jnull, jnull, some orig⟩)) ∧
    (∀ c, cacheRefresh = some c →
      refreshFlow false idIsList cacheRefresh (.error (.offline orig)) cacheEnabled
        getCache resolver = .ok c) ∧
    (cacheRefresh = none →
      refreshFlow false idIsList cacheRefresh (.error (.offline orig)) cacheEnabled
        getCache resolver = .ok ⟨jnull, jnull, some orig⟩) ∧
    (refreshFlow false idIsList cacheRefresh (.error (.other e)) cacheEnabled
        getCache resolver = .error (.transport e)) := by
  refine ⟨by simp [refreshFlow], ?_, ?_, by simp [refreshFlow]⟩
  · intro c hc
    subst hc
    simp [refreshFlow]
  · intro hc
    subst hc
    simp [refreshFlow]

/-- Witness for C4 with a concrete configured cache snapshot and a
concrete absent one. -/
theorem c4_offline_witness :
    (refreshFlow false true (some ⟨.arr [itemRemoteOld], jnull, none⟩)
        (.error (.offline 7)) true none none = .ok ⟨.arr [itemRemoteOld], jnull, none⟩) ∧
    (refreshFlow false true none (.error (.offline 7)) true none none
        = .ok ⟨jnull, jnull, some 7⟩) ∧
    (refreshFlow false true none (.error (.other 9)) true none none
        = .error (.transport 9)) :=
  ⟨(c4_offline_fallback true true (some ⟨.arr [itemRemoteOld], jnull, none⟩) none none
      7 9).2.1 _ rfl,
   (c4_offline_fallback true true none none none 7 9).2.2.1 rfl,
   (c4_offline_fallback true true none none none 7 9).2.2.2⟩


theorem getId_isSome_of_not_nullish {v : JVal} (h : isNullish v = false) :
    ∃ j, getId v = some j := by
  cases v with
  | atom a => cases a <;> first | exact ⟨_, rfl⟩ | exact absurd h (by simp [isNullish])
  | obj fs => exact ⟨_, rfl⟩
  | arr es => exact ⟨_, rfl⟩

theorem mapSet_append {m : List (JVal × JVal)} {k : JVal} (v : JVal)
    (h : ∀ q ∈ m, strictEqJ q.1 k = false) : mapSet m k v = m ++ [(k, v)] := by
  unfold mapSet
  rw [if_neg]
  intro hc
  rw [List.any_eq_true] at hc
  obtain ⟨q, hq, hqk⟩ := hc
  rw [h q hq] at hqk
  exact Bool.noConfusion hqk

theorem foldl_mapSet_append :
    ∀ (pairs m : List (JVal × JVal)),
    pairs.Pairwise (fun p q => strictEqJ p.1 q.1 = false) →
    (∀ p ∈ pairs, ∀ q ∈ m, strictEqJ q.1 p.1 = false) →
    pairs.foldl (fun m p => mapSet m p.1 p.2) m = m ++ pairs := by
  intro pairs
  induction pairs with
  | nil => intro m _ _; simp
  | cons p ps ih =>
    intro m hpw hfresh
    rw [List.foldl_cons, mapSet_append p.2 (hfresh p (List.mem_cons_self _ _))]
    rw [ih (m ++ [(p.1, p.2)]) hpw.of_cons]
    · simp
    · intro r hr q hq
      rw [List.mem_append] at hq
      cases hq with
      | inl hq => exact hfresh r (List.mem_cons_of_mem p hr) q hq
      | inr hq =>
        rw [List.mem_singleton] at hq
        subst hq
        exact (List.pairwise_cons.mp hpw).1 r hr

theorem mapM_getId_pairs :
    ∀ (input : List JVal), (∀ x ∈ input, isNullish x = false) →
    input.mapM (fun item => do pure ((← getId item), item)) =
      some (input.map (fun item => ((getId item).getD jundef, item))) := by
  intro input
  induction input with
  | nil => intro _; rfl
  | cons x xs ih =>
    intro h
    rw [List.mapM_cons]
    obtain ⟨j, hj⟩ := getId_isSome_of_not_nullish (h x (List.mem_cons_self _ _))
    rw [ih (fun y hy => h y (List.mem_cons_of_mem x hy))]
    simp [hj, Bind.bind, Option.bind]

theorem getId_isSome_of_guard {v : JVal} (hu : v ≠ jundef)
    (hn : strictEqJ v jnull = false) : ∃ j, getId v = some j := by
  cases v with
  | atom a =>
    cases a with
    | null => simp [strictEqJ, strictEq, jnull] at hn
    | undef => exact absurd rfl hu
    | bool b => exact ⟨_, rfl⟩
    | num n => exact ⟨_, rfl⟩
    | str s => exact ⟨_, rfl⟩
    | file r => exact ⟨_, rfl⟩
  | obj fs => exact ⟨_, rfl⟩
  | arr es => exact ⟨_, rfl⟩

theorem jnull_ne_jundef : jnull ≠ jundef := by
  intro h
  simp [jnull, jundef] at h

theorem jsMerge_ne_jundef (a b : JVal) : jsMerge a b ≠ jundef := by
  unfold jsMerge
  intro h
  exact JVal.noConfusion h

theorem resolveDeltasSingle_total :
    ∀ (ds : List Delta) (input : JVal), input ≠ jundef →
    ∃ out, resolveDeltasSingle input ds = some out := by
  intro ds
  induction ds with
  | nil => intro input _; exact ⟨input, rfl⟩
  | cons d ds ih =>
    intro input hu
    show ∃ out, resolveDeltasSingle input (d :: ds) = some out
    unfold resolveDeltasSingle
    rw [List.foldlM_cons]
    cases hn : strictEqJ input jnull with
    | true =>
      simp only [Bool.not_true, Bool.false_eq_true, if_false]
      exact ih input hu
    | false =>
      obtain ⟨j, hj⟩ := getId_isSome_of_guard hu hn
      simp only [Bool.not_false, if_true, hj, Option.bind, Bind.bind]
      cases hm : strictEqJ (deltaId d) j with
      | false =>
        simp only [Bool.false_eq_true, if_false]
        exact ih input hu
      | true =>
        simp only [if_true]
        cases d with
        | store r => exact ih input hu
        | update i p => exact ih (jsMerge input p) (jsMerge_ne_jundef input p)
        | destroy i => exact ih jnull jnull_ne_jundef

theorem resolveDeltas_fold_total :
    ∀ (ds : List Delta) (m : List (JVal × JVal)),
    (∀ r, Delta.store r ∈ ds → isNullish r = false) →
    ∃ m', (ds.foldlM (fun m d => do
      match d with
      | Delta.store r => pure (mapSet m ((← getId r)) r)
      | Delta.update i p => pure (mapSet m i (jsMerge ((mapGet m i).getD jundef) p))
      | Delta.destroy i => pure (mapDel m i)) m : Option _) = some m' := by
  intro ds
  induction ds with
  | nil => intro m _; exact ⟨m, rfl⟩
  | cons d ds ih =>
    intro m hst
    rw [List.foldlM_cons]
    cases d with
    | store r =>
      obtain ⟨j, hj⟩ := getId_isSome_of_not_nullish
        (hst r (List.mem_cons_self _ _))
      simp only [hj, Option.bind, Bind.bind]
      exact ih _ (fun r' hr' => hst r' (List.mem_cons_of_mem _ hr'))
    | update i p => exact ih _ (fun r' hr' => hst r' (List.mem_cons_of_mem _ hr'))
    | destroy i => exact ih _ (fun r' hr' => hst r' (List.mem_cons_of_mem _ hr'))

theorem resolveDeltasList_total (input : List JVal) (ds : List Delta)
    (hnn : ∀ x ∈ input, isNullish x = false)
    (hst : ∀ r, Delta.store r ∈ ds → isNullish r = false) :
    ∃ out, resolveDeltasList input ds = some out := by
  unfold resolveDeltasList
  rw [mapM_getId_pairs input hnn]
  obtain ⟨m', hm'⟩ := resolveDeltas_fold_total ds
    ((input.map (fun item => ((getId item).getD jundef, item))).foldl
      (fun m p => mapSet m p.1 p.2) []) hst
  refine ⟨m'.map (fun x => x.2), ?_⟩
  show (ds.foldlM (fun m d => do
      match d with
      | Delta.store r => pure (mapSet m ((← getId r)) r)
      | Delta.update i p => pure (mapSet m i (jsMerge ((mapGet m i).getD jundef) p))
      | Delta.destroy i => pure (mapDel m i))
    ((input.map (fun item => ((getId item).getD jundef, item))).foldl
      (fun m p => mapSet m p.1 p.2) []) : Option _).bind
    (fun m => some (m.map (fun x => x.2))) = some (m'.map (fun x => x.2))
  rw [hm']
  rfl

/-- C5 (counterexample to the claim as stated): `resolveDeltas` with an
empty delta list does **not** return every collection base unchanged —
two items sharing the id `1` collapse into the identity-keyed `Map`, the
later one overwriting the earlier in place, so the base
`[{id:1,name:"x"}, {id:1,name:"old"}]` comes back as
`[{id:1,name:"old"}]`. -/
theorem c5_counterexample :
    resolveDeltasList [itemLocalX, itemRemoteOld] [] = some [itemRemoteOld] ∧
    [itemRemoteOld] ≠ [itemLocalX, itemRemoteOld] := by
  constructor
  · simp [resolveDeltasList, mapSet, mapGet, getId, objGet, strictEqJ, strictEq,
      itemLocalX, itemRemoteOld, jundef, jnull, List.mapM, List.mapM.loop, List.foldlM,
      List.foldl, List.any, List.map, Option.bind, bind, pure]
  · intro h
    simp [itemLocalX, itemRemoteOld] at h

/-- C5 (amended): `resolveDeltas` with an empty delta list returns its
base unchanged for every collection base **whose items carry pairwise
non-identical ids** (the counterexample shows a duplicated id is
collapsed) and for every single optional item base; and it never throws
for any base and delta sequence within the typed domain — collection
elements and the resources of `store` deltas are non-nullish (they are
resources of type `T`), and a single base is never `undefined`
(`T | null`). -/
theorem c5_amended_identity_and_total :
    (∀ (input : List JVal), (∀ x ∈ input, isNullish x = false) →
      input.Pairwise (fun a b =>
        strictEqJ ((getId a).getD jundef) ((getId b).getD jundef) = false) →
      resolveDeltasList input [] = some input) ∧
    (∀ (input : JVal), resolveDeltasSingle input [] = some input) ∧
    (∀ (input : List JVal) (ds : List Delta),
      (∀ x ∈ input, isNullish x = false) →
      (∀ r, Delta.store r ∈ ds → isNullish r = false) →
      (resolveDeltasList input ds).isSome = true) ∧
    (∀ (input : JVal) (ds : List Delta), input ≠ jundef →
      (resolveDeltasSingle input ds).isSome = true) := by
  refine ⟨?_, ?_, ?_, ?_⟩
  · intro input hnn hpw
    unfold resolveDeltasList
    rw [mapM_getId_pairs input hnn]
    show some (((input.map (fun item => ((getId item).getD jundef, item))).foldl
      (fun m p => mapSet m p.1 p.2) []).map (fun x => x.2)) = some input
    rw [foldl_mapSet_append _ [] ?_ ?_]
    · rw [List.nil_append, List.map_map]
      have hcomp : ((fun (x : JVal × JVal) => x.2) ∘
          fun item => ((getId item).getD jundef, item)) = id := rfl
      rw [hcomp, List.map_id]
    · exact (List.pairwise_map.mpr hpw).imp (fun h => h)
    · intro p _ q hq
      exact absurd hq (List.not_mem_nil q)
  · intro input
    rfl
  · intro input ds hnn hst
    obtain ⟨out, hout⟩ := resolveDeltasList_total input ds hnn hst
    rw [hout]
    rfl
  · intro input ds hu
    obtain ⟨out, hout⟩ := resolveDeltasSingle_total ds input hu
    rw [hout]
    rfl

/-- Witness for the amended C5 at concrete inputs: a singleton
collection, a single item, and a destroy delta. -/
theorem c5_amended_witness :
    resolveDeltasList [itemLocalX] [] = some [itemLocalX] ∧
    resolveDeltasSingle itemLocalX [] = some itemLocalX ∧
    (resolveDeltasList [itemLocalX] [Delta.destroy (.atom (.num 1))]).isSome = true ∧
    (resolveDeltasSingle itemLocalX [Delta.destroy (.atom (.num 1))]).isSome = true :=
  ⟨c5_amended_identity_and_total.1 [itemLocalX]
      (by intro x hx; rw [List.mem_singleton] at hx; subst hx; rfl)
      (List.pairwise_singleton _ _),
   c5_amended_identity_and_total.2.1 itemLocalX,
   c5_amended_identity_and_total.2.2.1 [itemLocalX] [Delta.destroy (.atom (.num 1))]
      (by intro x hx; rw [List.mem_singleton] at hx; subst hx; rfl)
      (by intro r hr; rw [List.mem_singleton] at hr; exact Delta.noConfusion hr),
   c5_amended_identity_and_total.2.2.2 itemLocalX [Delta.destroy (.atom (.num 1))]
      (by intro h; simp [itemLocalX, jundef] at h)⟩

theorem jsize_le_sizeFields_of_mem :
    ∀ {fs : List (String × JVal)} {p : String × JVal}, p ∈ fs →
    jsize p.2 ≤ sizeFields fs := by
  intro fs
  induction fs with
  | nil => intro p hp; exact absurd hp (List.not_mem_nil p)
  | cons q rest ih =>
    intro p hp
    cases List.mem_cons.mp hp with
    | inl h =>
      subst h
      cases p with
      | mk k v => simp only [sizeFields]; omega
    | inr h =>
      refine le_trans (ih h) ?_
      cases q with
      | mk k v => simp only [sizeFields]; omega

theorem jsize_le_sizeElems_of_mem :
    ∀ {es : List JVal} {v : JVal}, v ∈ es → jsize v ≤ sizeElems es := by
  intro es
  induction es with
  | nil => intro v hv; exact absurd hv (List.not_mem_nil v)
  | cons w rest ih =>
    intro v hv
    cases List.mem_cons.mp hv with
    | inl h => subst h; simp only [sizeElems]; omega
    | inr h =>
      refine le_trans (ih h) ?_
      simp only [sizeElems]
      omega

theorem objGet_of_mem_nodup :
    ∀ {fs : List (String × JVal)} {p : String × JVal},
    nodupKeys fs = true → p ∈ fs → objGet fs p.1 = p.2 := by
  intro fs
  induction fs with
  | nil => intro p _ hp; exact absurd hp (List.not_mem_nil p)
  | cons q rest ih =>
    intro p hnd hp
    obtain ⟨hq, hrest⟩ := by
      simpa [nodupKeys, Bool.and_eq_true] using hnd
    cases List.mem_cons.mp hp with
    | inl h =>
      subst h
      cases p with
      | mk k v => simp [objGet]
    | inr h =>
      cases q with
      | mk k' v' =>
        have hne : (k' == p.1) = false := by
          cases p with
          | mk kp vp =>
            have hnp := hq kp vp h
            simp only [beq_eq_false_iff_ne, ne_eq]
            intro hkk
            exact hnp hkk.symm
        simp only [objGet, hne, Bool.false_eq_true, if_false]
        exact ih hrest h

theorem wf_obj_parts {fs : List (String × JVal)} (h : wf (.obj fs) = true) :
    nodupKeys fs = true ∧ wfFields fs = true := by
  rw [wf, Bool.and_eq_true] at h
  exact h

theorem wfFields_mem {fs : List (String × JVal)} {p : String × JVal}
    (h : wfFields fs = true) (hp : p ∈ fs) : wf p.2 = true := by
  induction fs with
  | nil => exact absurd hp (List.not_mem_nil p)
  | cons q rest ih =>
    rw [show wfFields (q :: rest) = (wf q.2 && wfFields rest) from by
      cases q; rw [wfFields], Bool.and_eq_true] at h
    obtain ⟨h1, h2⟩ := h
    cases List.mem_cons.mp hp with
    | inl hh => subst hh; exact h1
    | inr hh => exact ih h2 hh

theorem wfElems_mem {es : List JVal} {v : JVal}
    (h : wfElems es = true) (hv : v ∈ es) : wf v = true := by
  induction es with
  | nil => exact absurd hv (List.not_mem_nil v)
  | cons w rest ih =>
    rw [wfElems, Bool.and_eq_true] at h
    obtain ⟨h1, h2⟩ := h
    cases List.mem_cons.mp hv with
    | inl hh => subst hh; exact h1
    | inr hh => exact ih h2 hh

theorem deFieldsA_all {fs gs : List (String × JVal)}
    (h : ∀ p ∈ fs, deepEqualsD p.2 (objGet gs p.1) = true) :
    deFieldsA fs gs = true := by
  induction fs with
  | nil => rw [deFieldsA]
  | cons p rest ih =>
    cases p with
    | mk k v =>
      rw [deFieldsA, Bool.and_eq_true]
      exact ⟨h (k, v) (List.mem_cons_self _ _),
        ih (fun q hq => h q (List.mem_cons_of_mem _ hq))⟩

theorem deFieldsB_all_keys {gs fs : List (String × JVal)}
    (h : ∀ p ∈ gs, fs.any (fun q => q.1 == p.1) = true) :
    deFieldsB gs fs = true := by
  induction gs with
  | nil => rw [deFieldsB]
  | cons p rest ih =>
    cases p with
    | mk k w =>
      rw [deFieldsB, Bool.and_eq_true]
      constructor
      · rw [h (k, w) (List.mem_cons_self _ _)]
        rfl
      · exact ih (fun q hq => h q (List.mem_cons_of_mem _ hq))

theorem deArrA_diag {es : List JVal}
    (h : ∀ v ∈ es, deepEqualsD v v = true) : deArrA es es = true := by
  induction es with
  | nil => rw [deArrA]
  | cons x rest ih =>
    rw [deArrA, Bool.and_eq_true]
    exact ⟨h x (List.mem_cons_self _ _),
      ih (fun v hv => h v (List.mem_cons_of_mem _ hv))⟩

theorem deArrB_diag : ∀ (es : List JVal), deArrB es es = true := by
  intro es
  induction es with
  | nil => rw [deArrB]
  | cons x rest ih => rw [deArrB]; exact ih

theorem deepEqualsD_refl_bounded :
    ∀ (n : Nat) (v : JVal), jsize v ≤ n → wf v = true → deepEqualsD v v = true := by
  intro n
  induction n with
  | zero =>
    intro v hv _
    exact absurd hv (by have := jsize_pos v; omega)
  | succ n ih =>
    intro v hv hwf
    cases v with
    | atom a => rw [deepEqualsD]; simp [strictEq]
    | obj fs =>
      obtain ⟨hnd, hwff⟩ := wf_obj_parts hwf
      rw [deepEqualsD, Bool.and_eq_true]
      constructor
      · refine deFieldsA_all (fun p hp => ?_)
        rw [objGet_of_mem_nodup hnd hp]
        refine ih p.2 ?_ (wfFields_mem hwff hp)
        have h1 := jsize_le_sizeFields_of_mem hp
        rw [jsize] at hv
        omega
      · refine deFieldsB_all_keys (fun p hp => ?_)
        rw [List.any_eq_true]
        exact ⟨p, hp, by simp⟩
    | arr es =>
      rw [wf] at hwf
      rw [deepEqualsD, Bool.and_eq_true]
      constructor
      · refine deArrA_diag (fun v hv' => ?_)
        refine ih v ?_ (wfElems_mem hwf hv')
        have h1 := jsize_le_sizeElems_of_mem hv'
        rw [jsize] at hv
        omega
      · exact deArrB_diag es

theorem deepEqualsD_refl {v : JVal} (h : wf v = true) : deepEqualsD v v = true :=
  deepEqualsD_refl_bounded (jsize v) v le_rfl h

theorem pruneRec_self_bounded :
    ∀ (n : Nat) (fs gs : List (String × JVal)), sizeFields fs ≤ n →
    (∀ p ∈ fs, objGet gs p.1 = p.2) →
    (∀ p ∈ fs, wf p.2 = true) →
    pruneRec fs (.obj gs) [] = some (shellFields fs) := by
  intro n
  induction n with
  | zero =>
    intro fs gs hsz _ _
    cases fs with
    | nil => rw [pruneRec, shellFields]
    | cons p rest =>
      exfalso
      cases p with
      | mk k v =>
        have := jsize_pos v
        rw [sizeFields] at hsz
        omega
  | succ n ih =>
    intro fs gs hsz hag hwf
    cases fs with
    | nil => rw [pruneRec, shellFields]
    | cons p rest =>
      cases p with
      | mk k v =>
        have hsz' : sizeFields rest ≤ n := by
          have := jsize_pos v
          rw [sizeFields] at hsz
          omega
        have hagv : objGet gs k = v := hag (k, v) (List.mem_cons_self _ _)
        have hwfv : wf v = true := hwf (k, v) (List.mem_cons_self _ _)
        have hrest := ih rest gs hsz'
          (fun q hq => hag q (List.mem_cons_of_mem _ hq))
          (fun q hq => hwf q (List.mem_cons_of_mem _ hq))
        cases v with
        | atom a =>
          simp only [pruneRec, shellFields, isAtomic, isArr, Bool.true_or, if_true,
            List.contains, List.elem_eq_mem, List.mem_nil_iff, decide_False,
            Bool.false_eq_true, if_false]
          rw [show getPropEx (.obj gs) k = some (JVal.atom a) from hagv ▸ rfl]
          simp only [deepEqualsD_refl hwfv, Bool.not_true, Bool.false_eq_true, if_false]
          exact hrest
        | arr es =>
          simp only [pruneRec, shellFields, isAtomic, isArr, Bool.or_true, if_true,
            List.contains, List.elem_eq_mem, List.mem_nil_iff, decide_False,
            Bool.false_eq_true, if_false]
          rw [show getPropEx (.obj gs) k = some (JVal.arr es) from hagv ▸ rfl]
          simp only [deepEqualsD_refl hwfv, Bool.not_true, Bool.false_eq_true, if_false]
          exact hrest
        | obj fsv =>
          have hwfp := wf_obj_parts hwfv
          have hszv : sizeFields fsv ≤ n := by
            rw [sizeFields, jsize] at hsz
            omega
          have hsub := ih fsv fsv hszv
            (fun q hq => objGet_of_mem_nodup hwfp.1 hq)
            (fun q hq => wfFields_mem hwfp.2 hq)
          simp only [pruneRec, shellFields, isAtomic, isArr, Bool.or_self,
            Bool.false_eq_true, if_false]
          rw [show getPropEx (.obj gs) k = some (JVal.obj fsv) from hagv ▸ rfl]
          simp only [hsub, hrest]
          rfl


theorem noLeaves_shellFields_bounded :
    ∀ (n : Nat) (fs : List (String × JVal)), sizeFields fs ≤ n →
    noLeaves (shellFields fs) = true := by
  intro n
  induction n with
  | zero =>
    intro fs hsz
    cases fs with
    | nil => rw [shellFields, noLeaves]
    | cons p rest =>
      exfalso
      cases p with
      | mk k v =>
        have := jsize_pos v
        rw [sizeFields] at hsz
        omega
  | succ n ih =>
    intro fs hsz
    cases fs with
    | nil => rw [shellFields, noLeaves]
    | cons p rest =>
      cases p with
      | mk k v =>
        have hsz' : sizeFields rest ≤ n := by
          have := jsize_pos v
          rw [sizeFields] at hsz
          omega
        cases v with
        | atom a =>
          simp only [shellFields, isAtomic, isArr, Bool.true_or, if_true]
          exact ih rest hsz'
        | arr es =>
          simp only [shellFields, isAtomic, isArr, Bool.or_true, if_true]
          exact ih rest hsz'
        | obj fsv =>
          simp only [shellFields, isAtomic, isArr, Bool.or_self,
            Bool.false_eq_true, if_false]
          rw [noLeaves, Bool.and_eq_true]
          constructor
          · refine ih fsv ?_
            rw [sizeFields, jsize] at hsz
            omega
          · exact ih rest hsz'


/-- C6 (counterexample to the claim as stated): `pruneUnchanged(x, x)` is
**not** an empty structure for every `x` — a composite non-array field is
always re-included as a (possibly empty) pruned sub-object, so
`x = {b: {c: 2}}` yields `{b: {}}`, which still contains the field
`b`. -/
theorem c6_counterexample :
    pruneUnchanged [("b", .obj [("c", .atom (.num 2))])]
      (.obj [("b", .obj [("c", .atom (.num 2))])]) [] =
      some [("b", .obj [])] ∧
    ([("b", (.obj [] : JVal))] : List (String × JVal)) ≠ [] := by
  constructor
  · simp [pruneUnchanged, pruneRec, getPropEx, objGet, isAtomic, isArr, deepEqualsD,
      deFieldsA, deFieldsB, strictEq, jundef]
  · simp

/-- C6 (amended): for every well-formed object `x`,
`pruneUnchanged(x, x)` (empty `ignoreKeys`) returns the structure that
drops every atomic and array field and keeps each composite non-array
field as an empty shell, recursively; in particular the result contains
no leaf values at any depth (and is the empty object exactly when `x`
has no composite non-array fields). -/
theorem c6_amended_prune_self_shells (fs : List (String × JVal)) (h : wf (.obj fs) = true) :
    pruneUnchanged fs (.obj fs) [] = some (shellFields fs) ∧
    noLeaves (shellFields fs) = true := by
  obtain ⟨hnd, hwff⟩ := wf_obj_parts h
  exact ⟨pruneRec_self_bounded (sizeFields fs) fs fs le_rfl
      (fun q hq => objGet_of_mem_nodup hnd hq)
      (fun q hq => wfFields_mem hwff hq),
    noLeaves_shellFields_bounded (sizeFields fs) fs le_rfl⟩

/-- Witness for the amended C6 at the spec's §8 example shape
`{a: 1, b: {c: 2}}`. -/
theorem c6_amended_witness :
    pruneUnchanged [("a", JVal.atom (.num 1)), ("b", .obj [("c", .atom (.num 2))])]
      (.obj [("a", JVal.atom (.num 1)), ("b", .obj [("c", .atom (.num 2))])]) [] =
      some (shellFields [("a", JVal.atom (.num 1)), ("b", .obj [("c", .atom (.num 2))])]) ∧
    noLeaves (shellFields
      [("a", JVal.atom (.num 1)), ("b", .obj [("c", .atom (.num 2))])]) = true :=
  c6_amended_prune_self_shells _ (by simp [wf, wfFields, nodupKeys, List.any])

theorem objGet_eq_undef_of_not_mem :
    ∀ {gs : List (String × JVal)} {k : String}, (∀ q ∈ gs, q.1 ≠ k) →
    objGet gs k = jundef := by
  intro gs
  induction gs with
  | nil => intro k _; rfl
  | cons q rest ih =>
    intro k h
    cases q with
    | mk k' v' =>
      have hne : (k' == k) = false := by
        simp only [beq_eq_false_iff_ne, ne_eq]
        exact h (k', v') (List.mem_cons_self _ _)
      simp only [objGet, hne, Bool.false_eq_true, if_false]
      exact ih (fun q hq => h q (List.mem_cons_of_mem _ hq))

theorem deepEqualsD_jundef_false {v : JVal}
    (h : (isAtomic v = true ∧ v ≠ jundef) ∨ isArr v = true) :
    deepEqualsD v jundef = false := by
  cases v with
  | atom a =>
    cases a with
    | undef =>
      cases h with
      | inl h2 => exact absurd rfl h2.2
      | inr h2 => simp [isArr] at h2
    | null => simp [deepEqualsD, strictEq, jundef]
    | bool b => simp [deepEqualsD, strictEq, jundef]
    | num n => simp [deepEqualsD, strictEq, jundef]
    | str s => simp [deepEqualsD, strictEq, jundef]
    | file r => simp [deepEqualsD, strictEq, jundef]
  | obj fs => simp [deepEqualsD, jundef]
  | arr es => simp [deepEqualsD, jundef]

/-- C7 (counterexample to the claim as stated): a composite-object-valued
field whose key is absent from the comparison makes
`pruneUnchangedRecursive` recurse with an `undefined` comparison and
dereference `undefined[key]` — the call throws instead of including the
field: `pruneUnchanged({a: {b: 1}}, {})` throws a TypeError. -/
theorem c7_counterexample :
    pruneUnchanged [("a", .obj [("b", .atom (.num 1))])] (.obj []) [] = none := by
  simp [pruneUnchanged, pruneRec, getPropEx, objGet, isAtomic, isArr, jundef]

theorem pruneRec_cons_atomic (k : String) (v : JVal)
    (rest gs : List (String × JVal)) (hAA : (isAtomic v || isArr v) = true) :
    pruneRec ((k, v) :: rest) (.obj gs) [] =
      (if !(deepEqualsD v (objGet gs k)) then
        (pruneRec rest (.obj gs) []).map (fun t => (k, v) :: t)
      else pruneRec rest (.obj gs) []) := by
  cases v with
  | atom a =>
    rw [pruneRec]
    · simp only [isAtomic, isArr, Bool.true_or, if_true, List.contains,
        List.elem_eq_mem, List.mem_nil_iff, decide_False, Bool.false_eq_true, if_false]
      rfl
    · intro fsv h
      exact JVal.noConfusion h
  | arr es =>
    rw [pruneRec]
    · simp only [isAtomic, isArr, Bool.or_true, if_true, List.contains,
        List.elem_eq_mem, List.mem_nil_iff, decide_False, Bool.false_eq_true, if_false]
      rfl
    · intro fsv h
      exact JVal.noConfusion h
  | obj fsv => simp [isAtomic, isArr] at hAA

/-- C7 (amended): for update objects all of whose fields are
atomic-valued (other than `undefined`) or array-valued, `pruneUnchanged`
never throws against any comparison object, and every field whose key is
absent from the comparison is conservatively included in the output.
(Composite-object-valued fields are excluded: the counterexample shows
they throw; an `undefined`-valued field would be dropped, not
included.) -/
theorem c7_amended_missing_key_conservative :
    ∀ (fs gs : List (String × JVal)),
    (∀ p ∈ fs, (isAtomic p.2 = true ∧ p.2 ≠ jundef) ∨ isArr p.2 = true) →
    ∃ res, pruneUnchanged fs (.obj gs) [] = some res ∧
      ∀ p ∈ fs, (∀ q ∈ gs, q.1 ≠ p.1) → p ∈ res := by
  intro fs
  induction fs with
  | nil =>
    intro gs _
    exact ⟨[], by unfold pruneUnchanged; rw [pruneRec],
      fun p hp => absurd hp (List.not_mem_nil p)⟩
  | cons p rest ih =>
    intro gs hshape
    cases p with
    | mk k v =>
      obtain ⟨res, hres, hinc⟩ := ih gs
        (fun q hq => hshape q (List.mem_cons_of_mem _ hq))
      have hAA : (isAtomic v || isArr v) = true := by
        cases hshape (k, v) (List.mem_cons_self _ _) with
        | inl h => simp [h.1]
        | inr h => simp [h]
      cases hdeq : deepEqualsD v (objGet gs k) with
      | false =>
        refine ⟨(k, v) :: res, ?_, ?_⟩
        · show pruneRec ((k, v) :: rest) (.obj gs) [] = _
          rw [pruneRec_cons_atomic k v rest gs hAA]
          simp only [hdeq, Bool.not_false, if_true]
          rw [show pruneUnchanged rest (.obj gs) [] = pruneRec rest (.obj gs) []
            from rfl] at hres
          rw [hres]
          rfl
        · intro q hq hmiss
          cases List.mem_cons.mp hq with
          | inl h => subst h; exact List.mem_cons_self _ _
          | inr h => exact List.mem_cons_of_mem _ (hinc q h hmiss)
      | true =>
        refine ⟨res, ?_, ?_⟩
        · show pruneRec ((k, v) :: rest) (.obj gs) [] = _
          rw [pruneRec_cons_atomic k v rest gs hAA]
          simp only [hdeq, Bool.not_true, Bool.false_eq_true, if_false]
          exact hres
        · intro q hq hmiss
          cases List.mem_cons.mp hq with
          | inl h =>
            subst h
            exfalso
            rw [objGet_eq_undef_of_not_mem (fun r hr => hmiss r hr)] at hdeq
            rw [deepEqualsD_jundef_false (hshape (k, v) (List.mem_cons_self _ _))] at hdeq
            exact Bool.noConfusion hdeq
          | inr h => exact hinc q h hmiss

/-- Witness for the amended C7: the single atomic field `a: 1` against an
empty comparison object is included without a throw. -/
theorem c7_amended_witness :
    pruneUnchanged [("a", JVal.atom (.num 1))] (.obj []) [] ≠ none ∧
    ("a", JVal.atom (.num 1)) ∈
      (pruneUnchanged [("a", JVal.atom (.num 1))] (.obj []) []).getD [] := by
  obtain ⟨res, hres, hinc⟩ := c7_amended_missing_key_conservative
    [("a", .atom (.num 1))] []
    (by intro p hp
        rw [List.mem_singleton] at hp
        subst hp
        exact Or.inl ⟨rfl, by simp [jundef]⟩)
  constructor
  · rw [hres]
    exact fun h => Option.noConfusion h
  · rw [hres]
    exact hinc _ (List.mem_singleton_self _)
      (fun q hq => absurd hq (List.not_mem_nil q))

/-- C1: for a reconciliation pass over a cache entry whose local snapshot
is `{id: 1, name: "x"}`, whose last-synced remote snapshot is
`{id: 1, name: "old"}`, and where the freshly fetched remote item for
that identity is `{id: 1, name: "old"}` (deep-equal to the last-synced
remote), the computed plan contains `remoteUpdate({id: 1, name: "x"})`
and the conflict resolver is never invoked for that entry — whatever
resolver is configured, the invocation log stays empty, the item is
re-mapped to the local snapshot, and its identity is marked synced. -/
theorem c1_noConflict_localWins (resolver : Option Resolver) :
    reconcile resolver [⟨itemLocalX, itemRemoteOld⟩] [itemRemoteOld] =
      .ok { map := [("1", itemLocalX)], mapIds := [], syncIds := [.atom (.num 1)],
            remoteStore := [], remoteUpdate := [itemLocalX], remoteDestroy := [],
            localStore := [], localUpdate := [], localDestroy := [], log := [] } := by
  simp [reconcile, buildRemoteMap, processEntry, markSynced, entrySyncId, uidEx, getId,
    toStrEx, objGet, jsCoalesce, isNullish, strictEqJ, strictEq, smapGet, smapDel,
    assignField, syncAdd, deepEqualsD, deFieldsA, deFieldsB, deArrA, deArrB, itemLocalX,
    itemRemoteOld, jundef, jnull, List.mapM, List.mapM.loop, List.foldlM, List.foldl,
    List.erase, List.find?, List.filter, List.any, List.map, Option.getD, Option.bind,
    bind, Except.bind, pure, Except.pure]
  rfl

/-- C2: a cache entry with non-null local and last-synced remote
snapshots whose freshly fetched remote diverges from the last-synced
snapshot makes the pass invoke the configured conflict resolver exactly
once for that entry, with the arguments
`(entry.local, entry.remote, currentRemote)` in that order: whatever
plan state the pass has reached when it processes the entry, the
resolver-invocation log grows by exactly that one triple. -/
theorem c2_conflict_invokes_resolver_once (f : Resolver) (st : Plan)
    (e : CacheEntry) (lfs rfs : List (String × JVal)) (uid sl : String)
    (hl : e.loc = .obj lfs) (hr : e.rem = .obj rfs)
    (hid : entryUid e = some uid)
    (hlid : uidEx e.loc = some sl)
    (hconf : deepEqualsD e.rem (currentRemote st.map e) = false) :
    ∃ st', processEntry (some f) st e = .ok st' ∧
      st'.log = st.log ++ [(e.loc, e.rem, currentRemote st.map e)] := by
  have hid' : uidEx (jsCoalesce e.rem e.loc) = some uid := hid
  have hru : strictEqJ e.rem jundef = false := by rw [hr]; rfl
  have hln : isNullish e.loc = false := by rw [hl]; rfl
  have hremote : jsCoalesce ((smapGet st.map uid).getD jundef) jnull =
      currentRemote st.map e := by
    simp [currentRemote, hid]
  have hpureS : ∀ (x : String), (pure x : Except PassErr String) = Except.ok x :=
    fun _ => rfl
  obtain ⟨i, hi⟩ := entrySyncId_ok hr hl
  unfold processEntry
  rw [hid']
  simp only [Bind.bind, Except.bind, hpureS]
  rw [hremote, hconf]
  simp only [hru, Bool.not_false, if_true, Bool.false_eq_true, if_false]
  unfold handleConflict
  rw [show jsCoalesce e.loc (currentRemote st.map e) = e.loc from by
    unfold jsCoalesce; rw [hln]; rfl]
  simp only [hln, hlid, Bool.false_eq_true, if_false]
  cases hf : f e.loc e.rem (currentRemote st.map e) with
  | error u => exact ⟨_, rfl, rfl⟩
  | ok resolution =>
    exact (conflictTail_ok hi uid (currentRemote st.map e) resolution).imp
      (fun st' h => ⟨h.1, h.2.trans rfl⟩)

/-- Witness for C2 at the spec's concrete scenario: local
`{id:1, name:"x"}`, last-synced `{id:1, name:"old"}`, fetched
`{id:1, name:"newer"}`, a resolver that keeps the local side.  The
invocation log of that one entry is exactly the expected triple. -/
theorem c2_conflict_witness :
    Except.map Plan.log (processEntry (some (fun l _ _ => Except.ok l))
        { map := [("1", itemRemoteNewer)], mapIds := ["1"], syncIds := [],
          remoteStore := [], remoteUpdate := [], remoteDestroy := [],
          localStore := [], localUpdate := [], localDestroy := [], log := [] }
        ⟨itemLocalX, itemRemoteOld⟩) =
      Except.ok ([] ++ [(itemLocalX, itemRemoteOld,
        currentRemote [("1", itemRemoteNewer)] ⟨itemLocalX, itemRemoteOld⟩)]) := by
  obtain ⟨st', h1, h2⟩ :=
    c2_conflict_invokes_resolver_once (fun l _ _ => Except.ok l)
      { map := [("1", itemRemoteNewer)], mapIds := ["1"], syncIds := [],
        remoteStore := [], remoteUpdate := [], remoteDestroy := [],
        localStore := [], localUpdate := [], localDestroy := [], log := [] }
      ⟨itemLocalX, itemRemoteOld⟩
      [("id", .atom (.num 1)), ("name", .atom (.str "x"))]
      [("id", .atom (.num 1)), ("name", .atom (.str "old"))] "1" "1"
      rfl rfl rfl rfl
      (by simp [currentRemote, entryUid, uidEx, getId, toStrEx, objGet, jsCoalesce,
        isNullish, smapGet, itemLocalX, itemRemoteOld, itemRemoteNewer, jundef, jnull,
        deepEqualsD, deFieldsA, deFieldsB, strictEq, List.find?,
        show (toString (1 : Int)) = "1" from rfl])
  rw [h1]
  rw [show Except.map Plan.log (Except.ok st' : Except PassErr Plan)
    = Except.ok st'.log from rfl]
  rw [h2]

theorem deSpecFieldsA_eq_default (gs : List (String × JVal)) :
    ∀ (fs : List (String × JVal)),
    (∀ p ∈ fs, deepEqualsSpec strictEq p.2 (objGet gs p.1)
      = deepEqualsD p.2 (objGet gs p.1)) →
    deSpecFieldsA strictEq fs gs = deFieldsA fs gs := by
  intro fs
  induction fs with
  | nil => intro _; rw [deSpecFieldsA, deFieldsA]
  | cons p rest ih =>
    intro h
    obtain ⟨k, v⟩ := p
    rw [deSpecFieldsA, deFieldsA,
      h (k, v) (List.mem_cons_self _ _),
      ih (fun q hq => h q (List.mem_cons_of_mem _ hq))]

theorem deSpecFieldsB_eq_default (fs : List (String × JVal)) :
    ∀ (gs : List (String × JVal)),
    (∀ p ∈ gs, deepEqualsSpec strictEq p.2 (objGet fs p.1)
      = deepEqualsD p.2 (objGet fs p.1)) →
    deSpecFieldsB strictEq gs fs = deFieldsB gs fs := by
  intro gs
  induction gs with
  | nil => intro _; rw [deSpecFieldsB, deFieldsB]
  | cons p rest ih =>
    intro h
    obtain ⟨k, w⟩ := p
    rw [deSpecFieldsB, deFieldsB,
      h (k, w) (List.mem_cons_self _ _),
      ih (fun q hq => h q (List.mem_cons_of_mem _ hq))]

theorem deSpecArrA_eq_default :
    ∀ (xs ys : List JVal),
    (∀ x ∈ xs, ∀ y, (y ∈ ys ∨ y = jundef) →
      deepEqualsSpec strictEq x y = deepEqualsD x y) →
    deSpecArrA strictEq xs ys = deArrA xs ys := by
  intro xs
  induction xs with
  | nil => intro ys _; rw [deSpecArrA, deArrA]
  | cons x rest ih =>
    intro ys h
    cases ys with
    | nil =>
      rw [deSpecArrA, deArrA,
        h x (List.mem_cons_self _ _) jundef (Or.inr rfl),
        ih [] (fun q hq y hy => h q (List.mem_cons_of_mem _ hq) y hy)]
    | cons y ys2 =>
      rw [deSpecArrA, deArrA,
        h x (List.mem_cons_self _ _) y (Or.inl (List.mem_cons_self _ _)),
        ih ys2 (fun q hq w hw => h q (List.mem_cons_of_mem _ hq) w
          (hw.elim (fun hm => Or.inl (List.mem_cons_of_mem _ hm)) Or.inr))]

theorem deSpecArrB_eq_default :
    ∀ (ys xs : List JVal),
    (∀ y ∈ ys, deepEqualsSpec strictEq y jundef = deepEqualsD y jundef) →
    deSpecArrB strictEq xs ys = deArrB xs ys := by
  intro ys
  induction ys with
  | nil =>
    intro xs _
    cases xs with
    | nil => rw [deSpecArrB, deArrB]
    | cons x xs2 => rw [deSpecArrB, deArrB]
  | cons y rest ih =>
    intro xs h
    cases xs with
    | nil =>
      rw [deSpecArrB, deArrB,
        h y (List.mem_cons_self _ _),
        ih [] (fun q hq => h q (List.mem_cons_of_mem _ hq))]
    | cons x xs2 =>
      rw [deSpecArrB, deArrB]
      exact ih xs2 (fun q hq => h q (List.mem_cons_of_mem _ hq))

theorem deepEqualsSpec_default_bounded :
    ∀ (n : Nat) (a b : JVal), jsize a + jsize b ≤ n →
    deepEqualsSpec strictEq a b = deepEqualsD a b := by
  intro n
  induction n with
  | zero =>
    intro a b hab
    exact absurd hab (by have := jsize_pos a; have := jsize_pos b; omega)
  | succ n ih =>
    intro a b hab
    cases a with
    | atom x =>
      cases b with
      | atom y => rw [deepEqualsSpec, deepEqualsD]
      | obj gs => simp [deepEqualsSpec, deepEqualsD]
      | arr ys => simp [deepEqualsSpec, deepEqualsD]
    | obj fs =>
      cases b with
      | atom y => simp [deepEqualsSpec, deepEqualsD]
      | arr ys => simp [deepEqualsSpec, deepEqualsD]
      | obj gs =>
        rw [deepEqualsSpec, deepEqualsD]
        have hA : deSpecFieldsA strictEq fs gs = deFieldsA fs gs := by
          refine deSpecFieldsA_eq_default gs fs (fun p hp => ?_)
          refine ih p.2 (objGet gs p.1) ?_
          have h1 := jsize_le_sizeFields_of_mem hp
          have h2 := jsize_objGet_le gs p.1
          simp only [jsize] at hab
          omega
        have hB : deSpecFieldsB strictEq gs fs = deFieldsB gs fs := by
          refine deSpecFieldsB_eq_default fs gs (fun p hp => ?_)
          refine ih p.2 (objGet fs p.1) ?_
          have h1 := jsize_le_sizeFields_of_mem hp
          have h2 := jsize_objGet_le fs p.1
          simp only [jsize] at hab
          omega
        rw [hA, hB]
    | arr xs =>
      cases b with
      | atom y => simp [deepEqualsSpec, deepEqualsD]
      | obj gs => simp [deepEqualsSpec, deepEqualsD]
      | arr ys =>
        rw [deepEqualsSpec, deepEqualsD]
        have hu : jsize jundef = 1 := by simp [jundef, jsize]
        have hA : deSpecArrA strictEq xs ys = deArrA xs ys := by
          refine deSpecArrA_eq_default xs ys (fun x hx y hy => ?_)
          refine ih x y ?_
          have h1 := jsize_le_sizeElems_of_mem hx
          have h2 : jsize y ≤ 1 + sizeElems ys := by
            cases hy with
            | inl hm => have := jsize_le_sizeElems_of_mem hm; omega
            | inr he => rw [he, hu]; omega
          simp only [jsize] at hab
          omega
        have hB : deSpecArrB strictEq xs ys = deArrB xs ys := by
          refine deSpecArrB_eq_default ys xs (fun y hy => ?_)
          refine ih y jundef ?_
          have h1 := jsize_le_sizeElems_of_mem hy
          simp only [jsize] at hab
          rw [hu]
          omega
        rw [hA, hB]

theorem deepEqualsSpec_eq_default (a b : JVal) :
    deepEqualsSpec strictEq a b = deepEqualsD a b :=
  deepEqualsSpec_default_bounded (jsize a + jsize b) a b le_rfl

/-- C8 (counterexample to the claim as stated): the source's recursive
calls of `deepEquals` drop the custom comparator, so with a comparator
that is constantly `false` the nested field values `1` and `1` still
compare equal and `deepEquals({a:1}, {a:1}, () => false)` returns
`true`, whereas the spec's union-of-keys recursion with the comparator
threaded returns `false`. -/
theorem c8_counterexample :
    deepEquals (.obj [("a", JVal.atom (.num 1))])
      (.obj [("a", JVal.atom (.num 1))]) (fun _ _ => false) = true ∧
    deepEqualsSpec (fun _ _ => false)
      (.obj [("a", JVal.atom (.num 1))])
      (.obj [("a", JVal.atom (.num 1))]) = false := by
  constructor
  · simp [deepEquals, deepEqualsD, deFieldsA, deFieldsB, objGet, strictEq]
  · simp [deepEqualsSpec, deSpecFieldsA, deSpecFieldsB, objGet]

/-- C8 (amended): the spec's description of `deepEquals` is accurate
for the default comparator (`deepEquals a b strictEq` coincides with
the spec's union-of-keys/indices recursion), but a custom leaf
comparator is honoured **only at the top level**: whenever at least one
side is composite, `deepEquals a b cmp` ignores `cmp` entirely and
equals the spec recursion with the default `===` comparator. -/
theorem c8_amended_comparator_top_level_only (a b : JVal) (cmp : Atom → Atom → Bool) :
    deepEquals a b strictEq = deepEqualsSpec strictEq a b ∧
    (isAtomic a = false ∨ isAtomic b = false →
      deepEquals a b cmp = deepEqualsSpec strictEq a b) := by
  have hd : ∀ c : Atom → Atom → Bool, isAtomic a = false ∨ isAtomic b = false →
      deepEquals a b c = deepEqualsD a b := by
    intro c h
    cases a with
    | atom x =>
      cases b with
      | atom y => simp [isAtomic] at h
      | obj gs => simp [deepEquals, deepEqualsD]
      | arr ys => simp [deepEquals, deepEqualsD]
    | obj fs => cases b <;> simp [deepEquals, deepEqualsD]
    | arr xs => cases b <;> simp [deepEquals, deepEqualsD]
  constructor
  · rw [deepEqualsSpec_eq_default]
    cases a with
    | atom x => cases b <;> simp [deepEquals, deepEqualsD, strictEq]
    | obj fs => cases b <;> simp [deepEquals, deepEqualsD]
    | arr xs => cases b <;> simp [deepEquals, deepEqualsD]
  · intro h
    rw [deepEqualsSpec_eq_default]
    exact hd cmp h

/-- Witness for the amended C8 at `a = {a: 1}`, `b = {}`,
`cmp = const false`. -/
theorem c8_amended_witness :
    isAtomic (JVal.obj [("a", JVal.atom (.num 1))]) = false ∧
    deepEquals (.obj [("a", JVal.atom (.num 1))]) (.obj []) strictEq
      = deepEqualsSpec strictEq (.obj [("a", JVal.atom (.num 1))]) (.obj []) ∧
    deepEquals (.obj [("a", JVal.atom (.num 1))]) (.obj []) (fun _ _ => false)
      = deepEqualsSpec strictEq (.obj [("a", JVal.atom (.num 1))]) (.obj []) := by
  refine ⟨rfl, ?_, ?_⟩
  · exact (c8_amended_comparator_top_level_only
      (.obj [("a", JVal.atom (.num 1))]) (.obj []) (fun _ _ => false)).1
  · exact (c8_amended_comparator_top_level_only
      (.obj [("a", JVal.atom (.num 1))]) (.obj []) (fun _ _ => false)).2 (Or.inl rfl)


theorem pairwise_lt_of_sorted_nodup {l : List DItem}
    (h1 : List.Pairwise idLe l) (h2 : (l.map DItem.id).Nodup) :
    List.Pairwise (fun a b => a.id < b.id) l := by
  have hp : List.Pairwise (fun a b : DItem => a.id ≠ b.id) l :=
    List.pairwise_map.mp h2
  exact (List.Pairwise.and h1 hp).imp (fun h => lt_of_le_of_ne h.1 h.2)

theorem diffWalk_filter_spec :
    ∀ (n : Nat) (xs ys : List DItem),
    xs.length + ys.length ≤ n →
    List.Pairwise (fun a b => a.id < b.id) xs →
    List.Pairwise (fun a b => a.id < b.id) ys →
    diffWalk xs ys =
      (ys.filter (fun r => !(xs.any (fun l => l.id == r.id))),
       ys.filter (fun r =>
         xs.any (fun l => l.id == r.id && !(deepEqualsD l.asJVal r.asJVal))),
       (xs.filter (fun l => !(ys.any (fun r => r.id == l.id)))).map DItem.id) := by
  intro n
  induction n with
  | zero =>
    intro xs ys h hx hy
    have hx0 : xs = [] := List.length_eq_zero.mp (by omega)
    have hy0 : ys = [] := List.length_eq_zero.mp (by omega)
    subst hx0
    subst hy0
    simp [diffWalk]
  | succ n ih =>
    intro xs ys h hx hy
    cases xs with
    | nil =>
      cases ys with
      | nil => simp [diffWalk]
      | cons b bs =>
        rw [diffWalk,
          ih [] bs (by simp only [List.length_cons, List.length_nil] at h ⊢; omega)
            List.Pairwise.nil (List.pairwise_cons.mp hy).2]
        simp [List.filter_cons]
    | cons a as =>
      have hx' := (List.pairwise_cons.mp hx).2
      have hxa := (List.pairwise_cons.mp hx).1
      cases ys with
      | nil =>
        rw [diffWalk,
          ih as [] (by simp only [List.length_cons, List.length_nil] at h ⊢; omega)
            hx' List.Pairwise.nil]
        simp [List.filter_cons]
      | cons b bs =>
        have hy' := (List.pairwise_cons.mp hy).2
        have hyb := (List.pairwise_cons.mp hy).1
        have hlen : as.length + (b :: bs).length ≤ n := by
          simp only [List.length_cons] at h ⊢
          omega
        have hlen2 : (a :: as).length + bs.length ≤ n := by
          simp only [List.length_cons] at h ⊢
          omega
        have hlen3 : as.length + bs.length ≤ n := by
          simp only [List.length_cons] at h
          omega
        rcases lt_trichotomy a.id b.id with hab | hab | hab
        · have hgt : ∀ r ∈ b :: bs, a.id < r.id := by
            intro r hr
            cases List.mem_cons.mp hr with
            | inl he => rw [he]; exact hab
            | inr hm => exact lt_trans hab (hyb r hm)
          rw [diffWalk, if_pos hab, ih as (b :: bs) hlen hx' hy]
          simp only [Prod.mk.injEq]
          refine ⟨?_, ?_, ?_⟩
          · refine List.filter_congr (fun r hr => ?_)
            simp only [List.any_cons,
              beq_false_of_ne (ne_of_lt (hgt r hr)), Bool.false_or]
          · refine List.filter_congr (fun r hr => ?_)
            simp only [List.any_cons,
              beq_false_of_ne (ne_of_lt (hgt r hr)), Bool.false_and,
              Bool.false_or]
          · have hbf : ((b :: bs).any (fun r => r.id == a.id)) = false := by
              rw [List.any_eq_false]
              intro r hr
              exact ne_true_of_eq_false (beq_false_of_ne (ne_of_gt (hgt r hr)))
            simp only [List.filter_cons, hbf, Bool.not_false, if_true,
              List.map_cons]
        · have hgta : ∀ l ∈ as, b.id < l.id := fun l hl => hab ▸ hxa l hl
          have hgtb : ∀ r ∈ bs, a.id < r.id := fun r hr => hab ▸ hyb r hr
          rw [diffWalk, if_neg (by omega), if_neg (by omega),
            ih as bs hlen3 hx' hy']
          simp only [Prod.mk.injEq]
          refine ⟨?_, ?_, ?_⟩
          · have hhit : ((a :: as).any (fun l => l.id == b.id)) = true := by
              simp only [List.any_cons, hab]
              simp
            simp only [List.filter_cons, hhit, Bool.not_true,
              Bool.false_eq_true, if_false]
            refine List.filter_congr (fun r hr => ?_)
            simp only [List.any_cons,
              beq_false_of_ne (ne_of_lt (hgtb r hr)), Bool.false_or]
          · have hpb : ((a :: as).any
                (fun l => l.id == b.id && !(deepEqualsD l.asJVal b.asJVal)))
                = !(deepEqualsD a.asJVal b.asJVal) := by
              have htl : (as.any
                  (fun l => l.id == b.id && !(deepEqualsD l.asJVal b.asJVal)))
                  = false := by
                rw [List.any_eq_false]
                intro l hl
                simp [beq_false_of_ne (ne_of_gt (hgta l hl))]
              simp only [List.any_cons, htl, hab, Bool.or_false]
              simp
            have htail : bs.filter (fun r => (a :: as).any
                  (fun l => l.id == r.id && !(deepEqualsD l.asJVal r.asJVal)))
                = bs.filter (fun r => as.any
                  (fun l => l.id == r.id && !(deepEqualsD l.asJVal r.asJVal))) := by
              refine List.filter_congr (fun r hr => ?_)
              simp only [List.any_cons,
                beq_false_of_ne (ne_of_lt (hgtb r hr)), Bool.false_and,
                Bool.false_or]
            simp only [List.filter_cons, hpb, htail]
            cases hde : deepEqualsD a.asJVal b.asJVal <;> simp
          · have hpa : ((b :: bs).any (fun r => r.id == a.id)) = true := by
              simp only [List.any_cons, hab]
              simp
            simp only [List.filter_cons, hpa, Bool.not_true,
              Bool.false_eq_true, if_false]
            refine congrArg (List.map DItem.id)
              (List.filter_congr (fun l hl => ?_))
            have hne : b.id ≠ l.id := ne_of_lt (hab ▸ hgta l hl)
            simp only [List.any_cons, beq_false_of_ne hne, Bool.false_or]
        · have hlt : ∀ l ∈ a :: as, b.id < l.id := by
            intro l hl
            cases List.mem_cons.mp hl with
            | inl he => rw [he]; exact hab
            | inr hm => exact lt_trans hab (hxa l hm)
          rw [diffWalk, if_neg (by omega), if_pos hab,
            ih (a :: as) bs hlen2 hx hy']
          simp only [Prod.mk.injEq]
          refine ⟨?_, ?_, ?_⟩
          · have hbf : ((a :: as).any (fun l => l.id == b.id)) = false := by
              rw [List.any_eq_false]
              intro l hl
              exact ne_true_of_eq_false (beq_false_of_ne (ne_of_gt (hlt l hl)))
            simp only [List.filter_cons, hbf, Bool.not_false, if_true]
          · have hbf : ((a :: as).any
                (fun l => l.id == b.id && !(deepEqualsD l.asJVal b.asJVal)))
                = false := by
              rw [List.any_eq_false]
              intro l hl
              simp [beq_false_of_ne (ne_of_gt (hlt l hl))]
            simp only [List.filter_cons, hbf, Bool.false_eq_true, if_false]
          · refine congrArg (List.map DItem.id)
              (List.filter_congr (fun l hl => ?_))
            have hne : b.id ≠ l.id := ne_of_lt (hlt l hl)
            simp only [List.any_cons, beq_false_of_ne hne, Bool.false_or]


theorem anyPerm {α : Type} (l1 l2 : List α) (p : α → Bool) (h : l1.Perm l2) :
    l1.any p = l2.any p := by
  cases hq : l2.any p
  · rw [List.any_eq_false] at hq ⊢
    intro x hx
    exact hq x (h.mem_iff.mp hx)
  · rw [List.any_eq_true] at hq ⊢
    obtain ⟨x, hx, hpx⟩ := hq
    exact ⟨x, h.mem_iff.mpr hx, hpx⟩

theorem anyCongr {α : Type} (l : List α) (p q : α → Bool)
    (h : ∀ x ∈ l, p x = q x) : l.any p = l.any q := by
  induction l with
  | nil => rfl
  | cons a l ih =>
    simp only [List.any_cons, h a (List.mem_cons_self _ _),
      ih (fun x hx => h x (List.mem_cons_of_mem _ hx))]

theorem sortById_perm (l : List DItem) : (sortById l).Perm l :=
  List.perm_insertionSort idLe l

theorem sortById_pairwise_lt (l : List DItem) (h : (l.map DItem.id).Nodup) :
    List.Pairwise (fun a b => a.id < b.id) (sortById l) := by
  refine pairwise_lt_of_sorted_nodup (List.sorted_insertionSort idLe l) ?_
  exact ((sortById_perm l).map DItem.id).nodup_iff.mpr h

theorem sortById_eq_of_perm {l l2 : List DItem} (h : l.Perm l2)
    (hn : (l.map DItem.id).Nodup) : sortById l2 = sortById l := by
  have h2 : (l2.map DItem.id).Nodup := (h.map DItem.id).nodup hn
  have hp : (sortById l2).Perm (sortById l) :=
    ((sortById_perm l2).trans h.symm).trans (sortById_perm l).symm
  haveI : IsAntisymm DItem (fun a b => a.id < b.id) :=
    ⟨fun a b h1 h2 => absurd (lt_trans h1 h2) (lt_irrefl _)⟩
  exact List.eq_of_perm_of_sorted hp (sortById_pairwise_lt l2 h2)
    (sortById_pairwise_lt l hn)

/-- C9: for collections with pairwise-distinct ids on each side such
that every shared id carries distinct local/remote values, `diff`
classifies the remote-only items as created, the shared remote items as
updated, and the local-only ids as destroyed; and on the spec's concrete
scenario it returns `created = [{id:3, v:"c"}]`, `updated = []`,
`destroyed = [1]`. -/
theorem c9_diff_partition (L R : List DItem)
    (hL : (L.map DItem.id).Nodup) (hR : (R.map DItem.id).Nodup)
    (hC : ∀ l ∈ L, ∀ r ∈ R, l.id = r.id →
      deepEqualsD l.asJVal r.asJVal = false) :
    (diff L R).1.Perm (R.filter (fun r => !(L.any (fun l => l.id == r.id)))) ∧
    (diff L R).2.1.Perm (R.filter (fun r => L.any (fun l => l.id == r.id))) ∧
    (diff L R).2.2.Perm
      ((L.filter (fun l => !(R.any (fun r => r.id == l.id)))).map DItem.id) ∧
    diff [⟨1, [("v", .atom (.str "a"))]⟩, ⟨2, [("v", .atom (.str "b"))]⟩]
         [⟨2, [("v", .atom (.str "b"))]⟩, ⟨3, [("v", .atom (.str "c"))]⟩]
      = ([⟨3, [("v", .atom (.str "c"))]⟩], [], [1]) := by
  have hLp := sortById_perm L
  have hRp := sortById_perm R
  have hchar := diffWalk_filter_spec
    ((sortById L).length + (sortById R).length) (sortById L) (sortById R)
    le_rfl (sortById_pairwise_lt L hL) (sortById_pairwise_lt R hR)
  refine ⟨?_, ?_, ?_, ?_⟩
  · rw [diff, hchar]
    rw [List.filter_congr (fun r _ => by
      rw [anyPerm _ _ _ hLp] :
      ∀ r ∈ sortById R,
        (!((sortById L).any (fun l => l.id == r.id)))
          = (!(L.any (fun l => l.id == r.id))))]
    exact List.Perm.filter _ hRp
  · rw [diff, hchar]
    rw [List.filter_congr (fun r hr => by
      rw [anyPerm _ _ _ hLp]
      refine anyCongr L _ _ (fun l hl => ?_)
      cases hid : (l.id == r.id : Bool)
      · simp [hid]
      · have hde := hC l hl r (hRp.mem_iff.mp hr) (beq_iff_eq.mp hid)
        simp [hid, hde] :
      ∀ r ∈ sortById R,
        ((sortById L).any
          (fun l => l.id == r.id && !(deepEqualsD l.asJVal r.asJVal)))
          = (L.any (fun l => l.id == r.id)))]
    exact List.Perm.filter _ hRp
  · rw [diff, hchar]
    rw [List.filter_congr (fun l _ => by
      rw [anyPerm _ _ _ hRp] :
      ∀ l ∈ sortById L,
        (!((sortById R).any (fun r => r.id == l.id)))
          = (!(R.any (fun r => r.id == l.id))))]
    exact (List.Perm.filter _ hLp).map DItem.id
  · simp [diff, sortById, List.insertionSort, List.orderedInsert, idLe,
      diffWalk, DItem.asJVal, deepEqualsD, deFieldsA, deFieldsB, deArrA,
      deArrB, objGet, strictEq]

/-- Witness for C9 on collections with local-only id 1, remote-only id
3, and shared id 2 whose values differ. -/
theorem c9_witness :
    (([⟨1, [("v", JVal.atom (.str "a"))]⟩,
       ⟨2, [("v", JVal.atom (.str "b"))]⟩] : List DItem).map DItem.id).Nodup ∧
    (([⟨2, [("v", JVal.atom (.str "c"))]⟩,
       ⟨3, [("v", JVal.atom (.str "d"))]⟩] : List DItem).map DItem.id).Nodup ∧
    ((diff [⟨1, [("v", JVal.atom (.str "a"))]⟩,
            ⟨2, [("v", JVal.atom (.str "b"))]⟩]
           [⟨2, [("v", JVal.atom (.str "c"))]⟩,
            ⟨3, [("v", JVal.atom (.str "d"))]⟩]).1.Perm
      (([⟨2, [("v", JVal.atom (.str "c"))]⟩,
         ⟨3, [("v", JVal.atom (.str "d"))]⟩] : List DItem).filter
        (fun r => !(([⟨1, [("v", JVal.atom (.str "a"))]⟩,
          ⟨2, [("v", JVal.atom (.str "b"))]⟩] : List DItem).any
            (fun l => l.id == r.id)))) ∧
     (diff [⟨1, [("v", JVal.atom (.str "a"))]⟩,
            ⟨2, [("v", JVal.atom (.str "b"))]⟩]
           [⟨2, [("v", JVal.atom (.str "c"))]⟩,
            ⟨3, [("v", JVal.atom (.str "d"))]⟩]).2.1.Perm
      (([⟨2, [("v", JVal.atom (.str "c"))]⟩,
         ⟨3, [("v", JVal.atom (.str "d"))]⟩] : List DItem).filter
        (fun r => ([⟨1, [("v", JVal.atom (.str "a"))]⟩,
          ⟨2, [("v", JVal.atom (.str "b"))]⟩] : List DItem).any
            (fun l => l.id == r.id))) ∧
     (diff [⟨1, [("v", JVal.atom (.str "a"))]⟩,
            ⟨2, [("v", JVal.atom (.str "b"))]⟩]
           [⟨2, [("v", JVal.atom (.str "c"))]⟩,
            ⟨3, [("v", JVal.atom (.str "d"))]⟩]).2.2.Perm
      ((([⟨1, [("v", JVal.atom (.str "a"))]⟩,
          ⟨2, [("v", JVal.atom (.str "b"))]⟩] : List DItem).filter
        (fun l => !(([⟨2, [("v", JVal.atom (.str "c"))]⟩,
          ⟨3, [("v", JVal.atom (.str "d"))]⟩] : List DItem).any
            (fun r => r.id == l.id)))).map DItem.id) ∧
     diff [⟨1, [("v", .atom (.str "a"))]⟩, ⟨2, [("v", .atom (.str "b"))]⟩]
          [⟨2, [("v", .atom (.str "b"))]⟩, ⟨3, [("v", .atom (.str "c"))]⟩]
       = ([⟨3, [("v", .atom (.str "c"))]⟩], [], [1])) := by
  refine ⟨by decide, by decide, ?_⟩
  refine c9_diff_partition _ _ (by decide) (by decide) ?_
  intro l hl r hr heq
  simp only [List.mem_cons, List.not_mem_nil, or_false] at hl hr
  rcases hl with rfl | rfl <;> rcases hr with rfl | rfl <;>
    first
      | exact absurd heq (by decide)
      | simp [DItem.asJVal, deepEqualsD, deFieldsA, deFieldsB, objGet, strictEq]

/-- C10: with pairwise-distinct ids on each side, the created, updated
and destroyed lists of `diff` are each sorted in strictly ascending id
order, and the result of `diff` is invariant under permuting either
input collection. -/
theorem c10_sorted_and_order_invariant (L R L2 R2 : List DItem)
    (hL : (L.map DItem.id).Nodup) (hR : (R.map DItem.id).Nodup)
    (hpL : L.Perm L2) (hpR : R.Perm R2) :
    List.Pairwise (fun a b => a.id < b.id) (diff L R).1 ∧
    List.Pairwise (fun a b => a.id < b.id) (diff L R).2.1 ∧
    List.Pairwise (fun a b : Int => a < b) (diff L R).2.2 ∧
    diff L2 R2 = diff L R := by
  have hchar := diffWalk_filter_spec
    ((sortById L).length + (sortById R).length) (sortById L) (sortById R)
    le_rfl (sortById_pairwise_lt L hL) (sortById_pairwise_lt R hR)
  refine ⟨?_, ?_, ?_, ?_⟩
  · rw [diff, hchar]
    exact List.Pairwise.filter _ (sortById_pairwise_lt R hR)
  · rw [diff, hchar]
    exact List.Pairwise.filter _ (sortById_pairwise_lt R hR)
  · rw [diff, hchar]
    exact List.pairwise_map.mpr
      (List.Pairwise.filter _ (sortById_pairwise_lt L hL))
  · rw [diff, diff, sortById_eq_of_perm hpL hL, sortById_eq_of_perm hpR hR]

/-- Witness for C10 with both inputs permuted by a swap. -/
theorem c10_witness :
    (([⟨1, [("v", JVal.atom (.str "a"))]⟩,
       ⟨2, [("v", JVal.atom (.str "b"))]⟩] : List DItem).map DItem.id).Nodup ∧
    (([⟨2, [("v", JVal.atom (.str "c"))]⟩,
       ⟨3, [("v", JVal.atom (.str "d"))]⟩] : List DItem).map DItem.id).Nodup ∧
    (List.Pairwise (fun a b => a.id < b.id)
      (diff [⟨1, [("v", JVal.atom (.str "a"))]⟩,
             ⟨2, [("v", JVal.atom (.str "b"))]⟩]
            [⟨2, [("v", JVal.atom (.str "c"))]⟩,
             ⟨3, [("v", JVal.atom (.str "d"))]⟩]).1 ∧
     List.Pairwise (fun a b => a.id < b.id)
      (diff [⟨1, [("v", JVal.atom (.str "a"))]⟩,
             ⟨2, [("v", JVal.atom (.str "b"))]⟩]
            [⟨2, [("v", JVal.atom (.str "c"))]⟩,
             ⟨3, [("v", JVal.atom (.str "d"))]⟩]).2.1 ∧
     List.Pairwise (fun a b : Int => a < b)
      (diff [⟨1, [("v", JVal.atom (.str "a"))]⟩,
             ⟨2, [("v", JVal.atom (.str "b"))]⟩]
            [⟨2, [("v", JVal.atom (.str "c"))]⟩,
             ⟨3, [("v", JVal.atom (.str "d"))]⟩]).2.2 ∧
     diff [⟨2, [("v", JVal.atom (.str "b"))]⟩,
           ⟨1, [("v", JVal.atom (.str "a"))]⟩]
          [⟨3, [("v", JVal.atom (.str "d"))]⟩,
           ⟨2, [("v", JVal.atom (.str "c"))]⟩]
       = diff [⟨1, [("v", JVal.atom (.str "a"))]⟩,
               ⟨2, [("v", JVal.atom (.str "b"))]⟩]
              [⟨2, [("v", JVal.atom (.str "c"))]⟩,
               ⟨3, [("v", JVal.atom (.str "d"))]⟩]) :=
  ⟨by decide, by decide,
    c10_sorted_and_order_invariant _ _ _ _ (by decide) (by decide)
      (List.Perm.swap _ _ _) (List.Perm.swap _ _ _)⟩

end RH
